import Mathlib

/-!
Verification of the polygon-elimination engine (eliminate).

This file is a shallow embedding, in Lean 4, of the core of the eliminate
tool: victim-FID parsing, the where-clause token rewrite, the loader that
classifies features as keep or victim, the neighbor resolver with its three
merge policies, the merge-graph collapser, and the emitter.

Sources embedded. The repository carries two revisions of the library:
the revision declared by eliminate.h (the one taking an EliminateMergeType,
whose function bodies appear alongside explode.h) and a stale earlier
revision in eliminate_lib.cpp whose function signatures conflict with the
extern "C" declarations of eliminate.h and therefore cannot be the built
program. Definitions here follow the current revision; where the stale
revision is the one that carries a cited behavior (the ordered list of
de-duplicated FIDs built in its EliminatePolygonsByFID), that loop is
embedded as well and is marked as such.

Modelling conventions:
- GEOS geometry values are never inspected by the control logic, only fed
  to area / touches / length / union oracles; the embedding therefore keys
  every geometric quantity by the node index and takes the oracle answers
  as an environment (GeoEnv).
- C double values enter the logic only through order comparisons; they are
  modelled as rationals.
- C++ pointers to FeatureCreature are modelled as indices into the loaded
  feature list.
- The unbounded recursion of allCreaturesToMerge is modelled with explicit
  fuel; a stabilization theorem shows that fuel (number of victims + 1) is
  enough on every assignment graph the resolver can produce.
-/

/-- OGRNullFID: the null feature-id sentinel of the vector substrate. -/
def OGRNullFID : Int := -1

/-- The three merge policies of EliminateMergeType in eliminate.h. -/
inductive EliminateMergeType where
  | largestArea
  | smallestArea
  | longestBoundary
deriving DecidableEq, Repr

/-- Outcome kinds of the top-level operations (OGRErr values used by the core). -/
inductive OGRErr where
  | ok
  | failure
  | unsupported
deriving DecidableEq, Repr

/-- Warnings the run can log (CPLError with CE_Warning). Each constructor
records the node index (or count) the source message refers to. -/
inductive RunWarning where
  | noGeometry (idx : Nat)
  | prepFailed (idx : Nat)
  | notFound (count : Nat)
  | noNeighbors (idx : Nat)
  | noTouchingNeighbors (idx : Nat)
  | failedWrite (idx : Nat)
deriving DecidableEq, Repr

/-- Options record built by EliminateOptionsNew; only the fields the claims
touch are carried. EliminateOptionsNew initializes eMergeType to
ELIMINATE_MERGE_LARGEST_AREA and the where clause to null. -/
structure EliminateOptions where
  whereClause : Option String
  eMergeType : EliminateMergeType

/-- EliminateOptionsNew: the freshly allocated options value. -/
def EliminateOptionsNew : EliminateOptions :=
  { whereClause := none, eMergeType := EliminateMergeType.largestArea }

/-! ## The FID parser (CPLAtoFID) and the strtoll model

CPLAtoFID (identical in both revisions) rejects null and empty strings,
then calls strtoll base 10 and rejects ERANGE, negative values and
trailing garbage. strtoll skips C-locale whitespace, takes an optional
sign, then decimal digits; when no digit is consumed it returns 0 with
the end pointer reset to the start of the string; on overflow it returns
the clamped bound and sets ERANGE. -/

/-- C-locale isspace. -/
def isSpaceC (c : Char) : Bool :=
  c = ' ' || c = '\t' || c = '\n' || c = '\x0b' || c = '\x0c' || c = '\r'

/-- Value of a decimal digit character. -/
def digitValC (c : Char) : Nat := c.toNat - ('0').toNat

/-- Split a character list into its leading decimal digits and the rest. -/
def takeDigits : List Char → List Nat × List Char
  | [] => ([], [])
  | c :: cs =>
    if c.isDigit then
      let p := takeDigits cs
      (digitValC c :: p.1, p.2)
    else ([], c :: cs)

/-- LLONG_MAX for the 64-bit GIntBig. -/
def LLONG_MAX : Int := 9223372036854775807

/-- LLONG_MIN for the 64-bit GIntBig. -/
def LLONG_MIN : Int := -9223372036854775808

/-- Result of the strtoll model: the returned value, the suffix the end
pointer is left on, and whether errno was set to ERANGE. -/
structure StrtollResult where
  value : Int
  remaining : List Char
  erange : Bool
deriving DecidableEq, Repr

/-- Strip an optional leading sign; the flag is whether it was a minus. -/
def stripSign : List Char → Bool × List Char
  | '-' :: r => (true, r)
  | '+' :: r => (false, r)
  | l => (false, l)

/-- Decimal value of a digit list, most significant first. -/
def digitsToInt (ds : List Nat) : Int := ds.foldl (fun a d => a * 10 + (d : Int)) 0

/-- Clamp to the long long range, flagging ERANGE the way strtoll does. -/
def clampLL (v : Int) (rest : List Char) : StrtollResult :=
  if v < LLONG_MIN then { value := LLONG_MIN, remaining := rest, erange := true }
  else if LLONG_MAX < v then { value := LLONG_MAX, remaining := rest, erange := true }
  else { value := v, remaining := rest, erange := false }

/-- strtoll with base 10, on the character list of the argument string. -/
def strtoll10 (s : List Char) : StrtollResult :=
  if (takeDigits (stripSign (s.dropWhile isSpaceC)).2).1 = [] then
    { value := 0, remaining := s, erange := false }
  else
    clampLL
      (if (stripSign (s.dropWhile isSpaceC)).1 then
        -(digitsToInt (takeDigits (stripSign (s.dropWhile isSpaceC)).2).1)
      else digitsToInt (takeDigits (stripSign (s.dropWhile isSpaceC)).2).1)
      (takeDigits (stripSign (s.dropWhile isSpaceC)).2).2

/-- CPLAtoFID: strict FID parse. A null pointer is modelled as none. -/
def CPLAtoFID (ps : Option String) : Int :=
  match ps with
  | none => OGRNullFID
  | some s =>
    if s.toList = [] then OGRNullFID
    else
      let r := strtoll10 s.toList
      if r.erange = true ∨ r.value < 0 ∨ r.remaining ≠ [] then OGRNullFID else r.value

/-! ## The ordered de-duplicating FID list

The EliminatePolygonsByFID loop of the stale revision (the one cited for
this behavior) walks the string list, parses each entry with CPLAtoFID,
skips the null sentinel, and keeps each remaining FID only on first
sight, in an unordered set for membership and a list for order. -/

/-- Accumulator of the FID collection loop: the membership set (an
unordered set in the source, order irrelevant) and the ordered list. -/
structure FIDAcc where
  seen : List Int
  ordered : List Int

/-- One step of the FID collection loop. -/
def selectStep (acc : FIDAcc) (s : String) : FIDAcc :=
  let n := CPLAtoFID (some s)
  if n ≠ OGRNullFID ∧ ¬ (n ∈ acc.seen) then
    { seen := acc.seen ++ [n], ordered := acc.ordered ++ [n] }
  else acc

/-- The FID collection loop over the whole argument list. -/
def selectByIdList (strs : List String) : List Int :=
  (strs.foldl selectStep { seen := [], ordered := [] }).ordered

/-- Modelled from the spec: first-occurrence de-duplication, written the
way the spec describes it (keep each value the first time it appears,
drop every later repeat). Stated with fuel so that it computes. -/
def dedupFirstAux : Nat → List Int → List Int
  | 0, _ => []
  | _ + 1, [] => []
  | f + 1, x :: xs => x :: dedupFirstAux f (xs.filter (fun y => y ≠ x))

/-- Modelled from the spec: first-occurrence de-duplication. -/
def dedupFirst (l : List Int) : List Int := dedupFirstAux l.length l

/-! ### Lemmas about the FID list -/

theorem dedupFirstAux_congr : ∀ f g (l : List Int), l.length ≤ f → l.length ≤ g →
    dedupFirstAux f l = dedupFirstAux g l := by
  intro f
  induction f with
  | zero =>
    intro g l hf _
    have : l = [] := List.length_eq_zero.mp (Nat.le_zero.mp hf)
    subst this
    cases g <;> rfl
  | succ f ih =>
    intro g l hf hg
    cases l with
    | nil => cases g <;> rfl
    | cons x xs =>
      cases g with
      | zero => exact absurd hg (by simp)
      | succ g =>
        simp only [dedupFirstAux]
        have hlen : (xs.filter (fun y => y ≠ x)).length ≤ xs.length :=
          List.length_filter_le _ xs
        have hxf : xs.length ≤ f := Nat.le_of_succ_le_succ (by simpa using hf)
        have hxg : xs.length ≤ g := Nat.le_of_succ_le_succ (by simpa using hg)
        rw [ih g _ (le_trans hlen hxf) (le_trans hlen hxg)]

theorem dedupFirst_cons (x : Int) (xs : List Int) :
    dedupFirst (x :: xs) = x :: dedupFirst (xs.filter (fun y => y ≠ x)) := by
  show dedupFirstAux (xs.length + 1) (x :: xs) = _
  simp only [dedupFirstAux]
  rw [dedupFirstAux_congr xs.length (xs.filter (fun y => y ≠ x)).length _
      (List.length_filter_le _ xs) le_rfl]
  rfl

/-- The collection step on an already-parsed FID value. -/
def collectStep (acc : FIDAcc) (n : Int) : FIDAcc :=
  if n ≠ OGRNullFID ∧ ¬ (n ∈ acc.seen) then
    { seen := acc.seen ++ [n], ordered := acc.ordered ++ [n] }
  else acc

theorem selectStep_eq_collectStep (acc : FIDAcc) (s : String) :
    selectStep acc s = collectStep acc (CPLAtoFID (some s)) := rfl

theorem collect_loop_eq_dedupFirst : ∀ (l : List Int) (acc : FIDAcc),
    (l.foldl collectStep acc).ordered =
      acc.ordered ++ dedupFirst (l.filter (fun n => n ≠ OGRNullFID ∧ ¬ (n ∈ acc.seen))) := by
  intro l
  induction l with
  | nil => intro acc; simp [dedupFirst, dedupFirstAux]
  | cons n rest ih =>
    intro acc
    by_cases hn : n ≠ OGRNullFID ∧ ¬ (n ∈ acc.seen)
    · have hstep : collectStep acc n =
          { seen := acc.seen ++ [n], ordered := acc.ordered ++ [n] } := by
        simp [collectStep, hn]
      have hfe : (rest.filter (fun m => m ≠ OGRNullFID ∧ ¬ (m ∈ acc.seen))).filter
            (fun y => y ≠ n) =
          rest.filter (fun m => m ≠ OGRNullFID ∧ ¬ (m ∈ acc.seen ++ [n])) := by
        rw [List.filter_filter]
        apply List.filter_congr
        intro m _
        by_cases h1 : m = OGRNullFID <;> by_cases h2 : m ∈ acc.seen <;>
          by_cases h3 : m = n <;> simp [h1, h2, h3]
      calc ((n :: rest).foldl collectStep acc).ordered
          = (rest.foldl collectStep (collectStep acc n)).ordered := rfl
        _ = (acc.ordered ++ [n]) ++
              dedupFirst (rest.filter (fun m => m ≠ OGRNullFID ∧ ¬ (m ∈ acc.seen ++ [n]))) := by
              rw [hstep, ih]
        _ = acc.ordered ++
              dedupFirst ((n :: rest).filter (fun m => m ≠ OGRNullFID ∧ ¬ (m ∈ acc.seen))) := by
              rw [List.filter_cons_of_pos (by simpa using hn), dedupFirst_cons, hfe]
              simp
    · have hstep : collectStep acc n = acc := by simp [collectStep, hn]
      calc ((n :: rest).foldl collectStep acc).ordered
          = (rest.foldl collectStep acc).ordered := by rw [List.foldl_cons, hstep]
        _ = acc.ordered ++
              dedupFirst (rest.filter (fun m => m ≠ OGRNullFID ∧ ¬ (m ∈ acc.seen))) := ih acc
        _ = acc.ordered ++
              dedupFirst ((n :: rest).filter (fun m => m ≠ OGRNullFID ∧ ¬ (m ∈ acc.seen))) := by
              rw [List.filter_cons_of_neg (by simpa using hn)]

theorem selectByIdList_eq_dedupFirst (strs : List String) :
    selectByIdList strs =
      dedupFirst ((strs.map (fun s => CPLAtoFID (some s))).filter
        (fun n => n ≠ OGRNullFID)) := by
  unfold selectByIdList
  have h1 : strs.foldl selectStep { seen := [], ordered := [] } =
      (strs.map (fun s => CPLAtoFID (some s))).foldl collectStep
        { seen := [], ordered := [] } := by
    rw [List.foldl_map]
    rfl
  rw [h1, collect_loop_eq_dedupFirst]
  simp only [List.nil_append]
  congr 1
  apply List.filter_congr
  intro m _
  simp

theorem clampLL_in_range (v : Int) (rest : List Char) :
    (clampLL v rest).erange = false →
      LLONG_MIN ≤ (clampLL v rest).value ∧ (clampLL v rest).value ≤ LLONG_MAX := by
  unfold clampLL
  split_ifs with h1 h2
  · intro h; exact absurd h (by simp)
  · intro h; exact absurd h (by simp)
  · intro _
    exact ⟨not_lt.mp h1, not_lt.mp h2⟩

theorem strtoll10_in_range (s : List Char) :
    (strtoll10 s).erange = false →
      LLONG_MIN ≤ (strtoll10 s).value ∧ (strtoll10 s).value ≤ LLONG_MAX := by
  unfold strtoll10
  split
  · intro _
    constructor
    · show LLONG_MIN ≤ (0 : Int); decide
    · show (0 : Int) ≤ LLONG_MAX; decide
  · exact clampLL_in_range _ _

theorem CPLAtoFID_null_or_in_range (s : Option String) :
    CPLAtoFID s = OGRNullFID ∨ (0 ≤ CPLAtoFID s ∧ CPLAtoFID s ≤ LLONG_MAX) := by
  cases s with
  | none => exact Or.inl rfl
  | some s =>
    unfold CPLAtoFID
    dsimp only
    split_ifs with h1 h2
    · exact Or.inl rfl
    · exact Or.inl rfl
    · right
      push_neg at h2
      obtain ⟨ha, hb, _⟩ := h2
      refine ⟨hb, ?_⟩
      exact (strtoll10_in_range _ (eq_false_of_ne_true ha)).2

/-- Claim C5: select-by-ID-list parses each string with strict
decimal-integer semantics (empty strings, trailing garbage, negatives and
overflow all yield the null-FID sentinel and are ignored), de-duplicates
the remaining valid FIDs preserving first-seen order, and accepts zero as
a valid FID. Never does a non-null parse fall outside the valid 64-bit
range. -/
theorem claim_C5_select_by_id_list :
    (∀ strs : List String,
        selectByIdList strs =
          dedupFirst ((strs.map (fun s => CPLAtoFID (some s))).filter
            (fun n => n ≠ OGRNullFID))) ∧
    CPLAtoFID (some ("")) = OGRNullFID ∧
    CPLAtoFID (some ("12x")) = OGRNullFID ∧
    CPLAtoFID (some ("-3")) = OGRNullFID ∧
    CPLAtoFID (some ("9223372036854775808")) = OGRNullFID ∧
    CPLAtoFID (some ("0")) = 0 ∧
    (∀ s, CPLAtoFID s = OGRNullFID ∨ (0 ≤ CPLAtoFID s ∧ CPLAtoFID s ≤ LLONG_MAX)) :=
  ⟨selectByIdList_eq_dedupFirst, by decide, by decide, by decide, by decide, by decide,
    CPLAtoFID_null_or_in_range⟩

/-! ## The where-clause token rewrite

EliminatePolygonsWithOptionsEx: when a where clause is present and the
source driver name equals SQLite or GPKG and the geometry column name is
non-empty, every occurrence of the token OGR_GEOM_AREA in the clause is
replaced by ST_Area(<column>) before the filter is installed; otherwise
the clause is passed through unchanged. CPLString replaceAll is a plain
left-to-right substring scan: it finds the next occurrence of the target,
splices in the replacement, and resumes scanning right after the spliced
text. -/

/-- The replaceAll scan, fueled by the number of characters still to scan
(each step consumes at least one input character, so fuel equal to the
input length completes the scan). -/
def replaceAllFuel (tgt rep : List Char) : Nat → List Char → List Char
  | 0, s => s
  | _ + 1, [] => []
  | f + 1, c :: s =>
    if tgt ≠ [] ∧ tgt.isPrefixOf (c :: s) then
      rep ++ replaceAllFuel tgt rep f ((c :: s).drop tgt.length)
    else
      c :: replaceAllFuel tgt rep f s

/-- CPLString replaceAll on character lists. -/
def replaceAllL (tgt rep s : List Char) : List Char := replaceAllFuel tgt rep s.length s

/-- Whether tgt occurs as a contiguous substring. -/
def occursIn (tgt : List Char) : List Char → Bool
  | [] => tgt.isEmpty
  | c :: s => tgt.isPrefixOf (c :: s) || occursIn tgt s

/-- The area token the rewrite looks for. -/
def areaToken : List Char := ("OGR_GEOM_AREA").toList

/-- The replacement expression built from the geometry column name. -/
def areaExpr (geomColumn : String) : List Char :=
  ("ST_Area(" ++ geomColumn ++ ")").toList

/-- The where-clause rewrite on character lists. -/
def rewriteWhereL (driverName geomColumn : String) (w : List Char) : List Char :=
  if (driverName = "SQLite" ∨ driverName = "GPKG") ∧ geomColumn ≠ "" then
    replaceAllL areaToken (areaExpr geomColumn) w
  else w

/-- The where-clause rewrite as performed on the option string. -/
def rewriteWhere (driverName geomColumn whereClause : String) : String :=
  (rewriteWhereL driverName geomColumn whereClause.toList).asString

/-! ### Lemmas about the rewrite -/

theorem replaceAllFuel_congr (tgt rep : List Char) : ∀ f g (s : List Char),
    s.length ≤ f → s.length ≤ g →
    replaceAllFuel tgt rep f s = replaceAllFuel tgt rep g s := by
  intro f
  induction f with
  | zero =>
    intro g s hf _
    have : s = [] := List.length_eq_zero.mp (Nat.le_zero.mp hf)
    subst this
    cases g <;> rfl
  | succ f ih =>
    intro g s hf hg
    cases s with
    | nil => cases g <;> rfl
    | cons c s =>
      cases g with
      | zero => exact absurd hg (by simp)
      | succ g =>
        have hsf : s.length ≤ f := Nat.le_of_succ_le_succ (by simpa using hf)
        have hsg : s.length ≤ g := Nat.le_of_succ_le_succ (by simpa using hg)
        simp only [replaceAllFuel]
        by_cases h : tgt ≠ [] ∧ tgt.isPrefixOf (c :: s)
        · rw [if_pos h, if_pos h]
          have hd : ((c :: s).drop tgt.length).length ≤ s.length := by
        -- tgt nonempty, so at least one character is dropped
            have h1 : 1 ≤ tgt.length := by
              cases htgt : tgt with
              | nil => exact absurd htgt h.1
              | cons _ _ => simp
            simp only [List.length_drop, List.length_cons]
            omega
          rw [ih g _ (le_trans hd hsf) (le_trans hd hsg)]
        · rw [if_neg h, if_neg h, ih g s hsf hsg]

theorem replaceAllFuel_of_not_occurs (tgt rep : List Char) : ∀ f (s : List Char),
    occursIn tgt s = false → replaceAllFuel tgt rep f s = s := by
  intro f
  induction f with
  | zero => intro s _; rfl
  | succ f ih =>
    intro s hocc
    cases s with
    | nil => rfl
    | cons c s =>
      simp only [occursIn, Bool.or_eq_false_iff] at hocc
      simp only [replaceAllFuel]
      rw [if_neg (by simp [hocc.1]), ih s hocc.2]

theorem replaceAllL_of_not_occurs (tgt rep s : List Char)
    (h : occursIn tgt s = false) : replaceAllL tgt rep s = s :=
  replaceAllFuel_of_not_occurs tgt rep _ s h

theorem replaceAllL_head_match (tgt rep post : List Char) (htgt : tgt ≠ []) :
    replaceAllL tgt rep (tgt ++ post) = rep ++ replaceAllL tgt rep post := by
  obtain ⟨tc, ts, rfl⟩ : ∃ tc ts, tgt = tc :: ts := by
    cases tgt with
    | nil => exact absurd rfl htgt
    | cons a l => exact ⟨a, l, rfl⟩
  have hform : (tc :: ts) ++ post = tc :: (ts ++ post) := by simp
  have hdrop : (tc :: (ts ++ post)).drop (tc :: ts).length = post := by
    rw [← hform]
    exact List.drop_left (tc :: ts) post
  show replaceAllFuel (tc :: ts) rep ((tc :: ts) ++ post).length ((tc :: ts) ++ post) = _
  rw [hform]
  have hlen : (tc :: (ts ++ post)).length = (ts ++ post).length + 1 := by simp
  rw [hlen]
  simp only [replaceAllFuel]
  rw [if_pos ⟨by simp, by rw [List.isPrefixOf_iff_prefix, ← hform]; exact List.prefix_append _ _⟩]
  rw [hdrop, replaceAllFuel_congr _ _ _ post.length post (by simp) le_rfl]
  rfl

theorem replaceAllL_emit (tgt rep : List Char) (htgt : tgt ≠ []) :
    ∀ pre post : List Char,
      (∀ i, i < pre.length → tgt.isPrefixOf ((pre ++ tgt ++ post).drop i) = false) →
      replaceAllL tgt rep (pre ++ tgt ++ post) = pre ++ rep ++ replaceAllL tgt rep post := by
  intro pre
  induction pre with
  | nil =>
    intro post _
    simpa using replaceAllL_head_match tgt rep post htgt
  | cons c pre ih =>
    intro post hno
    have h0 : tgt.isPrefixOf (c :: (pre ++ tgt ++ post)) = false := by
      have h := hno 0 (by simp)
      simpa using h
    have hstep : replaceAllL tgt rep ((c :: pre) ++ tgt ++ post) =
        c :: replaceAllL tgt rep (pre ++ tgt ++ post) := by
      have hform : (c :: pre) ++ tgt ++ post = c :: (pre ++ tgt ++ post) := by simp
      show replaceAllFuel tgt rep ((c :: pre) ++ tgt ++ post).length ((c :: pre) ++ tgt ++ post) = _
      rw [hform]
      have hlen : (c :: (pre ++ tgt ++ post)).length = (pre ++ tgt ++ post).length + 1 := by simp
      rw [hlen]
      simp only [replaceAllFuel]
      rw [if_neg]
      · rfl
      · intro hc
        exact absurd hc.2 (by rw [h0]; simp)
    rw [hstep]
    have hni : ∀ i, i < pre.length → tgt.isPrefixOf ((pre ++ tgt ++ post).drop i) = false := by
      intro i hi
      have h := hno (i + 1) (by simp only [List.length_cons]; omega)
      simpa using h
    rw [ih post hni]
    simp

/-- Claim C4 counterexample: the rewrite is a plain substring replacement,
so with an SQL-backed driver it also rewrites an occurrence of
OGR_GEOM_AREA that sits inside the larger identifier XOGR_GEOM_AREA,
contradicting the claim that only the exact token and never a larger
identifier containing it is replaced. -/
theorem claim_C4_counterexample :
    rewriteWhere ("SQLite") ("geom") ("XOGR_GEOM_AREA") = ("XST_Area(geom)") ∧
    rewriteWhere ("SQLite") ("geom") ("XOGR_GEOM_AREA") ≠ ("XOGR_GEOM_AREA") := by
  constructor
  · decide
  · decide

/-- Claim C4 (amended): the OGR_GEOM_AREA rewrite fires exactly when the
source driver name equals SQLite or GPKG and the geometry column name is
known (non-empty); for any other driver, or an unknown column, or a
predicate in which the token does not occur, the predicate passes through
unchanged; when it fires it is a plain left-to-right substring
replacement, so the first token occurrence (even one embedded in a larger
identifier) is replaced by ST_Area(<column>) and scanning resumes after
the spliced text. -/
theorem claim_C4_amended :
    (∀ d c w, d ≠ "SQLite" → d ≠ "GPKG" → rewriteWhere d c w = w) ∧
    (∀ d w, rewriteWhere d ("") w = w) ∧
    (∀ d c w, occursIn areaToken w.toList = false → rewriteWhere d c w = w) ∧
    (∀ (c : String) (pre post : List Char), c ≠ "" →
      (∀ i, i < pre.length → areaToken.isPrefixOf ((pre ++ areaToken ++ post).drop i) = false) →
      rewriteWhereL ("SQLite") c (pre ++ areaToken ++ post) =
        pre ++ areaExpr c ++ replaceAllL areaToken (areaExpr c) post) := by
  refine ⟨?_, ?_, ?_, ?_⟩
  · intro d c w h1 h2
    unfold rewriteWhere rewriteWhereL
    rw [if_neg (by intro hc; rcases hc.1 with h | h <;> [exact h1 h; exact h2 h])]
    exact String.asString_toList w
  · intro d w
    unfold rewriteWhere rewriteWhereL
    rw [if_neg (by intro hc; exact hc.2 rfl)]
    exact String.asString_toList w
  · intro d c w hocc
    unfold rewriteWhere rewriteWhereL
    by_cases hcond : (d = "SQLite" ∨ d = "GPKG") ∧ c ≠ ""
    · rw [if_pos hcond, replaceAllL_of_not_occurs _ _ _ hocc]
      exact String.asString_toList w
    · rw [if_neg hcond]
      exact String.asString_toList w
  · intro c pre post hc hno
    unfold rewriteWhereL
    rw [if_pos ⟨Or.inl rfl, hc⟩]
    exact replaceAllL_emit areaToken (areaExpr c) (by decide) pre post hno

/-- Claim C4 amended, witness: a non-SQL driver passes the token through,
and with an SQLite source the token occurrence after the prefix is
substituted. -/
theorem claim_C4_amended_witness :
    rewriteWhere ("CSV") ("geom") ("OGR_GEOM_AREA < 1") = ("OGR_GEOM_AREA < 1") ∧
    rewriteWhereL ("SQLite") ("geom") ((("a < ").toList ++ areaToken ++ [])) =
      ("a < ").toList ++ areaExpr ("geom") ++ replaceAllL areaToken (areaExpr ("geom")) [] :=
  ⟨claim_C4_amended.1 ("CSV") ("geom") ("OGR_GEOM_AREA < 1") (by decide) (by decide),
   claim_C4_amended.2.2.2 ("geom") (("a < ").toList) [] (by decide) (by decide)⟩

/-! ## Neighbor selection

FeatureCreature::findNeighbor runs std::min_element over the neighbor
list with one of the three neighbor_t comparators: larger (non-strict
greater-or-equal on the neighbor areas), smaller (strict less-than on
areas), longer (non-strict greater-or-equal on boundary lengths).
std::min_element is a single left-to-right pass keeping a current best
and replacing it whenever comp(candidate, best) holds. -/

/-- A neighbor edge as recorded by addNeighborIfTouching: the index of the
touching creature and the computed shared-boundary length. -/
structure NeighborEdge where
  creature : Nat
  boundaryLength : Rat
deriving DecidableEq, Repr

/-- Comparator neighbor_t::larger. -/
def compLarger (area : Nat → Rat) (a b : NeighborEdge) : Bool :=
  decide (area b.creature ≤ area a.creature)

/-- Comparator neighbor_t::smaller. -/
def compSmaller (area : Nat → Rat) (a b : NeighborEdge) : Bool :=
  decide (area a.creature < area b.creature)

/-- Comparator neighbor_t::longer. -/
def compLonger (a b : NeighborEdge) : Bool :=
  decide (b.boundaryLength ≤ a.boundaryLength)

/-- std::min_element over a list: none on an empty range, otherwise the
single-pass fold. -/
def minElement (comp : NeighborEdge → NeighborEdge → Bool) :
    List NeighborEdge → Option NeighborEdge
  | [] => none
  | x :: xs => some (xs.foldl (fun best y => if comp y best then y else best) x)

/-- findNeighbor dispatching on the merge type. In the source the switch
sends every value other than SMALLEST_AREA and LONGEST_BOUNDARY (its
default case included) to the LARGEST_AREA comparator. -/
def findNeighbor (area : Nat → Rat) (t : EliminateMergeType)
    (nbrs : List NeighborEdge) : Option NeighborEdge :=
  match t with
  | EliminateMergeType.largestArea => minElement (compLarger area) nbrs
  | EliminateMergeType.smallestArea => minElement (compSmaller area) nbrs
  | EliminateMergeType.longestBoundary => minElement compLonger nbrs

/-! ### Selection lemmas -/

/-- The single pass with a greater-or-equal comparator on key f. -/
def selBest (f : NeighborEdge → Rat) (x : NeighborEdge) (xs : List NeighborEdge) : NeighborEdge :=
  xs.foldl (fun best y => if f best ≤ f y then y else best) x

/-- The single pass with a strict less-than comparator on key f. -/
def selBestLT (f : NeighborEdge → Rat) (x : NeighborEdge) (xs : List NeighborEdge) : NeighborEdge :=
  xs.foldl (fun best y => if f y < f best then y else best) x

theorem selBest_max (f : NeighborEdge → Rat) :
    ∀ (xs : List NeighborEdge) (x : NeighborEdge), ∀ z ∈ x :: xs, f z ≤ f (selBest f x xs) := by
  intro xs
  induction xs with
  | nil =>
    intro x z hz
    rcases List.mem_cons.mp hz with h | h
    · subst h; exact le_rfl
    · exact absurd h (List.not_mem_nil z)
  | cons y ys ih =>
    intro x z hz
    have hstep : selBest f x (y :: ys) = selBest f (if f x ≤ f y then y else x) ys := rfl
    rw [hstep]
    by_cases hxy : f x ≤ f y
    · rw [if_pos hxy]
      rcases List.mem_cons.mp hz with h | h
      · rw [h]
        exact le_trans hxy (ih y y (List.mem_cons_self y ys))
      · exact ih y z h
    · rw [if_neg hxy]
      rcases List.mem_cons.mp hz with h | h
      · rw [h]; exact ih x x (List.mem_cons_self x ys)
      · rcases List.mem_cons.mp h with h2 | h2
        · rw [h2]
          exact le_trans (le_of_lt (lt_of_not_le hxy)) (ih x x (List.mem_cons_self x ys))
        · exact ih x z (List.mem_cons_of_mem x h2)

theorem selBest_split (f : NeighborEdge → Rat) :
    ∀ (xs : List NeighborEdge) (x : NeighborEdge),
      (selBest f x xs = x ∧ ∀ z ∈ xs, f z < f x) ∨
      (∃ l rest, xs = l ++ selBest f x xs :: rest ∧
        ∀ z ∈ rest, f z < f (selBest f x xs)) := by
  intro xs
  induction xs with
  | nil =>
    intro x
    exact Or.inl ⟨rfl, by intro z hz; exact absurd hz (List.not_mem_nil z)⟩
  | cons y ys ih =>
    intro x
    have hstep : selBest f x (y :: ys) = selBest f (if f x ≤ f y then y else x) ys := rfl
    by_cases hxy : f x ≤ f y
    · rw [if_pos hxy] at hstep
      rcases ih y with ⟨heq, hlt⟩ | ⟨l, rest, hsplit, hlt⟩
      · right
        refine ⟨[], ys, ?_, ?_⟩
        · rw [hstep, heq]; rfl
        · intro z hz; rw [hstep, heq]; exact hlt z hz
      · right
        refine ⟨y :: l, rest, ?_, ?_⟩
        · rw [List.cons_append, hstep, ← hsplit]
        · intro z hz; rw [hstep]; exact hlt z hz
    · rw [if_neg hxy] at hstep
      rcases ih x with ⟨heq, hlt⟩ | ⟨l, rest, hsplit, hlt⟩
      · left
        refine ⟨by rw [hstep, heq], ?_⟩
        intro z hz
        rcases List.mem_cons.mp hz with h | h
        · subst h; exact lt_of_not_le hxy
        · exact hlt z h
      · right
        refine ⟨y :: l, rest, ?_, ?_⟩
        · rw [List.cons_append, hstep, ← hsplit]
        · intro z hz; rw [hstep]; exact hlt z hz

theorem selBest_mem (f : NeighborEdge → Rat) (xs : List NeighborEdge) (x : NeighborEdge) :
    selBest f x xs ∈ x :: xs := by
  rcases selBest_split f xs x with ⟨heq, _⟩ | ⟨l, rest, hsplit, _⟩
  · rw [heq]; exact List.mem_cons_self x xs
  · have hm : selBest f x xs ∈ l ++ selBest f x xs :: rest :=
      List.mem_append.mpr (Or.inr (List.mem_cons_self _ rest))
    rw [← hsplit] at hm
    exact List.mem_cons_of_mem x hm

theorem selBestLT_min (f : NeighborEdge → Rat) :
    ∀ (xs : List NeighborEdge) (x : NeighborEdge), ∀ z ∈ x :: xs, f (selBestLT f x xs) ≤ f z := by
  intro xs
  induction xs with
  | nil =>
    intro x z hz
    rcases List.mem_cons.mp hz with h | h
    · subst h; exact le_rfl
    · exact absurd h (List.not_mem_nil z)
  | cons y ys ih =>
    intro x z hz
    have hstep : selBestLT f x (y :: ys) = selBestLT f (if f y < f x then y else x) ys := rfl
    rw [hstep]
    by_cases hxy : f y < f x
    · rw [if_pos hxy]
      rcases List.mem_cons.mp hz with h | h
      · rw [h]
        exact le_trans (ih y y (List.mem_cons_self y ys)) (le_of_lt hxy)
      · exact ih y z h
    · rw [if_neg hxy]
      rcases List.mem_cons.mp hz with h | h
      · rw [h]; exact ih x x (List.mem_cons_self x ys)
      · rcases List.mem_cons.mp h with h2 | h2
        · rw [h2]
          exact le_trans (ih x x (List.mem_cons_self x ys)) (not_lt.mp hxy)
        · exact ih x z (List.mem_cons_of_mem x h2)

theorem selBestLT_mem (f : NeighborEdge → Rat) :
    ∀ (xs : List NeighborEdge) (x : NeighborEdge), selBestLT f x xs ∈ x :: xs := by
  intro xs
  induction xs with
  | nil => intro x; exact List.mem_cons_self x []
  | cons y ys ih =>
    intro x
    have hstep : selBestLT f x (y :: ys) = selBestLT f (if f y < f x then y else x) ys := rfl
    rw [hstep]
    by_cases hxy : f y < f x
    · rw [if_pos hxy]
      rcases List.mem_cons.mp (ih y) with h | h
      · rw [h]; exact List.mem_cons_of_mem x (List.mem_cons_self y ys)
      · exact List.mem_cons_of_mem x (List.mem_cons_of_mem y h)
    · rw [if_neg hxy]
      rcases List.mem_cons.mp (ih x) with h | h
      · rw [h]; exact List.mem_cons_self x (y :: ys)
      · exact List.mem_cons_of_mem x (List.mem_cons_of_mem y h)

theorem minElement_compLarger_eq (area : Nat → Rat) (x : NeighborEdge) (xs : List NeighborEdge) :
    minElement (compLarger area) (x :: xs) =
      some (selBest (fun e => area e.creature) x xs) := by
  show some _ = some _
  congr 1
  apply List.foldl_ext
  intro best y _
  simp only [compLarger, selBest]
  by_cases h : area best.creature ≤ area y.creature <;> simp [h]

theorem minElement_compLonger_eq (x : NeighborEdge) (xs : List NeighborEdge) :
    minElement compLonger (x :: xs) =
      some (selBest (fun e => e.boundaryLength) x xs) := by
  show some _ = some _
  congr 1
  apply List.foldl_ext
  intro best y _
  simp only [compLonger, selBest]
  by_cases h : best.boundaryLength ≤ y.boundaryLength <;> simp [h]

theorem minElement_compSmaller_eq (area : Nat → Rat) (x : NeighborEdge) (xs : List NeighborEdge) :
    minElement (compSmaller area) (x :: xs) =
      some (selBestLT (fun e => area e.creature) x xs) := by
  show some _ = some _
  congr 1
  apply List.foldl_ext
  intro best y _
  simp only [compSmaller, selBestLT]
  by_cases h : area y.creature < area best.creature <;> simp [h]

/-! ## The neighbor resolver

The per-victim loop of EliminatePolygonsByFID queries the STR-tree with
the victim geometry; the callback collects every reported item other than
the victim itself; with no candidates it warns and leaves the victim
unassigned; otherwise addNeighborIfTouching records a NeighborEdge for
each candidate that touches (with the shared-boundary length, 0 when the
length computation fails); findNeighbor then selects under the merge
type, and the victim is appended to the chosen neighbor creatures-to-
merge list. -/

/-- The oracle answers of the geometry engine and the spatial index,
keyed by node index: the tree query result for a node (in callback
order), the prepared-touches test, the computed shared-boundary length,
the cached area, and whether writing a feature to the destination layer
succeeds. -/
structure GeoEnv where
  treeQuery : Nat → List Nat
  touches : Nat → Nat → Bool
  blength : Nat → Nat → Rat
  area : Nat → Rat
  writeOk : Nat → Bool

/-- Candidate list for a victim: the tree query result with the victim
itself filtered out by the query callback. -/
def candidatesOf (env : GeoEnv) (v : Nat) : List Nat :=
  (env.treeQuery v).filter (fun c => c ≠ v)

/-- The neighbor-edge list addNeighborIfTouching builds over the
candidates, in candidate order. -/
def touchingNeighbors (env : GeoEnv) (v : Nat) : List NeighborEdge :=
  (candidatesOf env v).filterMap (fun c =>
    if env.touches v c then
      some { creature := c, boundaryLength := env.blength v c }
    else none)

/-- One pass of the per-victim loop: the chosen neighbor index (none when
the victim stays unassigned) and the warnings logged. -/
def resolveVictim (env : GeoEnv) (t : EliminateMergeType) (v : Nat) :
    Option Nat × List RunWarning :=
  if candidatesOf env v = [] then (none, [RunWarning.noNeighbors v])
  else
    match findNeighbor env.area t (touchingNeighbors env v) with
    | none => (none, [RunWarning.noTouchingNeighbors v])
    | some nb => (some nb.creature, [])

/-! ### Per-policy selection facts -/

theorem findNeighbor_largest_spec (area : Nat → Rat) (x : NeighborEdge)
    (xs : List NeighborEdge) :
    ∃ nb, findNeighbor area EliminateMergeType.largestArea (x :: xs) = some nb ∧
      nb ∈ x :: xs ∧ ∀ p ∈ x :: xs, area p.creature ≤ area nb.creature := by
  refine ⟨selBest (fun e => area e.creature) x xs, ?_, ?_, ?_⟩
  · exact minElement_compLarger_eq area x xs
  · exact selBest_mem _ xs x
  · exact selBest_max _ xs x

theorem findNeighbor_smallest_spec (area : Nat → Rat) (x : NeighborEdge)
    (xs : List NeighborEdge) :
    ∃ nb, findNeighbor area EliminateMergeType.smallestArea (x :: xs) = some nb ∧
      nb ∈ x :: xs ∧ ∀ p ∈ x :: xs, area nb.creature ≤ area p.creature := by
  refine ⟨selBestLT (fun e => area e.creature) x xs, ?_, ?_, ?_⟩
  · exact minElement_compSmaller_eq area x xs
  · exact selBestLT_mem _ xs x
  · exact selBestLT_min _ xs x

theorem findNeighbor_longest_spec (area : Nat → Rat) (x : NeighborEdge)
    (xs : List NeighborEdge) :
    ∃ nb, findNeighbor area EliminateMergeType.longestBoundary (x :: xs) = some nb ∧
      nb ∈ x :: xs ∧ ∀ p ∈ x :: xs, p.boundaryLength ≤ nb.boundaryLength := by
  refine ⟨selBest (fun e => e.boundaryLength) x xs, ?_, ?_, ?_⟩
  · exact minElement_compLonger_eq x xs
  · exact selBest_mem _ xs x
  · exact selBest_max _ xs x

theorem candidatesOf_ne_nil_of_touching (env : GeoEnv) (v : Nat)
    (h : touchingNeighbors env v ≠ []) : candidatesOf env v ≠ [] := by
  intro hc
  apply h
  unfold touchingNeighbors
  rw [hc]
  rfl

/-- Claim C1: for a victim with at least one touching neighbor, the
resolver selects a touching neighbor that is optimal under the configured
merge policy (greatest area under LARGEST_AREA, least area under
SMALLEST_AREA, greatest shared-boundary length under LONGEST_BOUNDARY),
and the default merge type installed by EliminateOptionsNew is
LARGEST_AREA. -/
theorem claim_C1_policy_selection (env : GeoEnv) (t : EliminateMergeType) (v : Nat)
    (h : touchingNeighbors env v ≠ []) :
    (∃ nb : NeighborEdge, nb ∈ touchingNeighbors env v ∧
      resolveVictim env t v = (some nb.creature, []) ∧
      (t = EliminateMergeType.largestArea →
        ∀ p ∈ touchingNeighbors env v, env.area p.creature ≤ env.area nb.creature) ∧
      (t = EliminateMergeType.smallestArea →
        ∀ p ∈ touchingNeighbors env v, env.area nb.creature ≤ env.area p.creature) ∧
      (t = EliminateMergeType.longestBoundary →
        ∀ p ∈ touchingNeighbors env v, p.boundaryLength ≤ nb.boundaryLength)) ∧
    EliminateOptionsNew.eMergeType = EliminateMergeType.largestArea := by
  refine ⟨?_, rfl⟩
  obtain ⟨x, xs, hxs⟩ : ∃ x xs, touchingNeighbors env v = x :: xs := by
    cases htn : touchingNeighbors env v with
    | nil => exact absurd htn h
    | cons a l => exact ⟨a, l, rfl⟩
  have hres : resolveVictim env t v =
      match findNeighbor env.area t (touchingNeighbors env v) with
      | none => (none, [RunWarning.noTouchingNeighbors v])
      | some nb => (some nb.creature, []) := by
    unfold resolveVictim
    rw [if_neg (candidatesOf_ne_nil_of_touching env v h)]
  cases t with
  | largestArea =>
    obtain ⟨nb, hfind, hmem, hopt⟩ := findNeighbor_largest_spec env.area x xs
    rw [← hxs] at hfind hmem hopt
    refine ⟨nb, hmem, by rw [hres, hfind], fun _ => hopt, ?_, ?_⟩
    · intro ht; cases ht
    · intro ht; cases ht
  | smallestArea =>
    obtain ⟨nb, hfind, hmem, hopt⟩ := findNeighbor_smallest_spec env.area x xs
    rw [← hxs] at hfind hmem hopt
    refine ⟨nb, hmem, by rw [hres, hfind], ?_, fun _ => hopt, ?_⟩
    · intro ht; cases ht
    · intro ht; cases ht
  | longestBoundary =>
    obtain ⟨nb, hfind, hmem, hopt⟩ := findNeighbor_longest_spec env.area x xs
    rw [← hxs] at hfind hmem hopt
    refine ⟨nb, hmem, by rw [hres, hfind], ?_, ?_, fun _ => hopt⟩
    · intro ht; cases ht
    · intro ht; cases ht

/-- A concrete environment: victim 0 has bounding-box candidates 1 and 2,
both touching, with areas 2 and 7 and boundary lengths 5 and 3. -/
def envC1 : GeoEnv :=
  { treeQuery := fun _ => [1, 2]
    touches := fun _ _ => true
    blength := fun _ c => if c = 1 then 5 else 3
    area := fun c => if c = 1 then 2 else 7
    writeOk := fun _ => true }

/-- Claim C1 witness: the policy-selection theorem applied to a concrete
victim with two touching neighbors. -/
theorem claim_C1_policy_selection_witness :
    touchingNeighbors envC1 0 ≠ [] ∧
    ((∃ nb : NeighborEdge, nb ∈ touchingNeighbors envC1 0 ∧
      resolveVictim envC1 EliminateMergeType.largestArea 0 = (some nb.creature, []) ∧
      (EliminateMergeType.largestArea = EliminateMergeType.largestArea →
        ∀ p ∈ touchingNeighbors envC1 0,
          envC1.area p.creature ≤ envC1.area nb.creature) ∧
      (EliminateMergeType.largestArea = EliminateMergeType.smallestArea →
        ∀ p ∈ touchingNeighbors envC1 0,
          envC1.area nb.creature ≤ envC1.area p.creature) ∧
      (EliminateMergeType.largestArea = EliminateMergeType.longestBoundary →
        ∀ p ∈ touchingNeighbors envC1 0, p.boundaryLength ≤ nb.boundaryLength)) ∧
     EliminateOptionsNew.eMergeType = EliminateMergeType.largestArea) :=
  ⟨by decide, claim_C1_policy_selection envC1 EliminateMergeType.largestArea 0 (by decide)⟩

/-- A concrete environment with a tie: victim 0 has touching candidates 1
and 2 of equal area and equal boundary length. -/
def envC2 : GeoEnv :=
  { treeQuery := fun _ => [1, 2]
    touches := fun _ _ => true
    blength := fun _ _ => 1
    area := fun _ => 4
    writeOk := fun _ => true }

/-- Claim C2 counterexample: with two touching neighbors of equal
greatest area (and equal greatest boundary length), appended in the order
1 then 2, the resolver selects neighbor 2 - the last tied neighbor, not
the first - under LARGEST_AREA and under LONGEST_BOUNDARY alike, because
the larger and longer comparators use non-strict greater-or-equal, so a
tie replaces the current best. -/
theorem claim_C2_counterexample :
    touchingNeighbors envC2 0 =
      [{ creature := 1, boundaryLength := 1 }, { creature := 2, boundaryLength := 1 }] ∧
    envC2.area 1 = envC2.area 2 ∧
    resolveVictim envC2 EliminateMergeType.largestArea 0 = (some 2, []) ∧
    resolveVictim envC2 EliminateMergeType.largestArea 0 ≠ (some 1, []) ∧
    resolveVictim envC2 EliminateMergeType.longestBoundary 0 = (some 2, []) ∧
    resolveVictim envC2 EliminateMergeType.longestBoundary 0 ≠ (some 1, []) := by
  refine ⟨by decide, by decide, by decide, by decide, by decide, by decide⟩

/-- Claim C2 (amended): under LARGEST_AREA and LONGEST_BOUNDARY the
comparators compare with non-strict greater-or-equal, so among several
neighbors of equal greatest key the selected one is the last such
neighbor in the order the NeighborEdges were appended: every edge after
the selected one has a strictly smaller key, while ties before it are
passed over. -/
theorem claim_C2_amended (env : GeoEnv) (t : EliminateMergeType) (v : Nat)
    (h : touchingNeighbors env v ≠ []) :
    (t = EliminateMergeType.largestArea →
      ∃ l nb rest, touchingNeighbors env v = l ++ nb :: rest ∧
        resolveVictim env t v = (some nb.creature, []) ∧
        (∀ p ∈ touchingNeighbors env v, env.area p.creature ≤ env.area nb.creature) ∧
        (∀ p ∈ rest, env.area p.creature < env.area nb.creature)) ∧
    (t = EliminateMergeType.longestBoundary →
      ∃ l nb rest, touchingNeighbors env v = l ++ nb :: rest ∧
        resolveVictim env t v = (some nb.creature, []) ∧
        (∀ p ∈ touchingNeighbors env v, p.boundaryLength ≤ nb.boundaryLength) ∧
        (∀ p ∈ rest, p.boundaryLength < nb.boundaryLength)) := by
  obtain ⟨x, xs, hxs⟩ : ∃ x xs, touchingNeighbors env v = x :: xs := by
    cases htn : touchingNeighbors env v with
    | nil => exact absurd htn h
    | cons a l => exact ⟨a, l, rfl⟩
  have hres : resolveVictim env t v =
      match findNeighbor env.area t (touchingNeighbors env v) with
      | none => (none, [RunWarning.noTouchingNeighbors v])
      | some nb => (some nb.creature, []) := by
    unfold resolveVictim
    rw [if_neg (candidatesOf_ne_nil_of_touching env v h)]
  constructor
  · intro ht
    subst ht
    set f : NeighborEdge → Rat := fun e => env.area e.creature with hf
    have hfind : findNeighbor env.area EliminateMergeType.largestArea
        (touchingNeighbors env v) = some (selBest f x xs) := by
      rw [hxs]; exact minElement_compLarger_eq env.area x xs
    have hsel : resolveVictim env EliminateMergeType.largestArea v =
        (some (selBest f x xs).creature, []) := by rw [hres, hfind]
    have hmax := selBest_max f xs x
    rcases selBest_split f xs x with ⟨heq, hlt⟩ | ⟨l, rest, hsplit, hlt⟩
    · refine ⟨[], selBest f x xs, xs, ?_, hsel, ?_, ?_⟩
      · rw [hxs, heq]; rfl
      · intro p hp; rw [hxs] at hp; exact hmax p hp
      · intro p hp; rw [heq]; exact hlt p hp
    · refine ⟨x :: l, selBest f x xs, rest, ?_, hsel, ?_, ?_⟩
      · rw [hxs]
        nth_rewrite 1 [hsplit]
        rw [List.cons_append]
      · intro p hp; rw [hxs] at hp; exact hmax p hp
      · exact hlt
  · intro ht
    subst ht
    set f : NeighborEdge → Rat := fun e => e.boundaryLength with hf
    have hfind : findNeighbor env.area EliminateMergeType.longestBoundary
        (touchingNeighbors env v) = some (selBest f x xs) := by
      rw [hxs]; exact minElement_compLonger_eq x xs
    have hsel : resolveVictim env EliminateMergeType.longestBoundary v =
        (some (selBest f x xs).creature, []) := by rw [hres, hfind]
    have hmax := selBest_max f xs x
    rcases selBest_split f xs x with ⟨heq, hlt⟩ | ⟨l, rest, hsplit, hlt⟩
    · refine ⟨[], selBest f x xs, xs, ?_, hsel, ?_, ?_⟩
      · rw [hxs, heq]; rfl
      · intro p hp; rw [hxs] at hp; exact hmax p hp
      · intro p hp; rw [heq]; exact hlt p hp
    · refine ⟨x :: l, selBest f x xs, rest, ?_, hsel, ?_, ?_⟩
      · rw [hxs]
        nth_rewrite 1 [hsplit]
        rw [List.cons_append]
      · intro p hp; rw [hxs] at hp; exact hmax p hp
      · exact hlt

/-- Claim C2 amended, witness: the last-tied-neighbor characterization
applied to the concrete tied environment. -/
theorem claim_C2_amended_witness :
    touchingNeighbors envC2 0 ≠ [] ∧
    ((EliminateMergeType.largestArea = EliminateMergeType.largestArea →
      ∃ l nb rest, touchingNeighbors envC2 0 = l ++ nb :: rest ∧
        resolveVictim envC2 EliminateMergeType.largestArea 0 = (some nb.creature, []) ∧
        (∀ p ∈ touchingNeighbors envC2 0,
          envC2.area p.creature ≤ envC2.area nb.creature) ∧
        (∀ p ∈ rest, envC2.area p.creature < envC2.area nb.creature)) ∧
     (EliminateMergeType.largestArea = EliminateMergeType.longestBoundary →
      ∃ l nb rest, touchingNeighbors envC2 0 = l ++ nb :: rest ∧
        resolveVictim envC2 EliminateMergeType.largestArea 0 = (some nb.creature, []) ∧
        (∀ p ∈ touchingNeighbors envC2 0, p.boundaryLength ≤ nb.boundaryLength) ∧
        (∀ p ∈ rest, p.boundaryLength < nb.boundaryLength))) :=
  ⟨by decide, claim_C2_amended envC2 EliminateMergeType.largestArea 0 (by decide)⟩

/-! ## The loader

The load loop of EliminatePolygonsByFID streams the source features in
order. Each feature becomes a node; a node whose geometry is missing (or
whose export to the geometry engine fails) is dropped with a warning
before any classification. A node whose FID is in the pending
victim-FID set has its prepared geometry materialized (a preparation
failure drops the node with a warning before it reaches any list), the
FID is removed from the pending set, and the node joins the victim list;
any other node joins the keep list; every node that survives this far is
inserted into the spatial index. After the loop a non-empty pending set
is reported with a warning. -/

/-- A source feature: its FID, whether a usable geometry is present (the
GetGeometryRef and exportToGEOS steps both succeed), whether preparing
the geometry succeeds, and its attribute record. -/
structure SrcFeature (A : Type) where
  fid : Int
  hasGeom : Bool
  prepOk : Bool
  attrs : A
deriving DecidableEq, Repr

/-- The loader state: the keep list, the victim list, the nodes inserted
into the spatial index, the pending victim-FID set (kept as a list with
set semantics), and the warnings logged so far. Node identity is the
position of the feature in the source stream. -/
@[ext]
structure LoadState where
  keeps : List Nat
  victims : List Nat
  stIndex : List Nat
  pending : List Int
  warnings : List RunWarning
deriving DecidableEq, Repr

/-- One iteration of the load loop, for the feature at position i. -/
def loadStep {A : Type} (st : LoadState) (i : Nat) (f : SrcFeature A) : LoadState :=
  if f.hasGeom = false then
    { st with warnings := st.warnings ++ [RunWarning.noGeometry i] }
  else if f.fid ∈ st.pending then
    if f.prepOk = false then
      { st with warnings := st.warnings ++ [RunWarning.prepFailed i] }
    else
      { st with
        pending := st.pending.erase f.fid
        victims := st.victims ++ [i]
        stIndex := st.stIndex ++ [i] }
  else
    { st with keeps := st.keeps ++ [i], stIndex := st.stIndex ++ [i] }

/-- The load loop over the remaining features, i being the position of
the first of them. -/
def loadAux {A : Type} : LoadState → Nat → List (SrcFeature A) → LoadState
  | st, _, [] => st
  | st, i, f :: fs => loadAux (loadStep st i f) (i + 1) fs

/-- The whole load pass from a fresh state. -/
def load {A : Type} (features : List (SrcFeature A)) (pending : List Int) : LoadState :=
  loadAux { keeps := [], victims := [], stIndex := [], pending := pending, warnings := [] }
    0 features

/-- Insertion into the pending unordered set: negative FIDs (the null
sentinel included) are skipped, and so are values already present. -/
def insertFID (l : List Int) (x : Int) : List Int :=
  if 0 ≤ x ∧ ¬ (x ∈ l) then l ++ [x] else l

/-- The pending victim-FID set built from the caller-supplied FID array. -/
def buildPending (fids : List Int) : List Int := fids.foldl insertFID []

/-! ### Loader lemmas -/

/-- The structural loader invariant: every recorded node index is below
the position counter, the keep and victim lists hold no duplicates, and
no index is both kept and a victim. -/
def LoadInv (st : LoadState) (i : Nat) : Prop :=
  (∀ j ∈ st.keeps, j < i) ∧ (∀ j ∈ st.victims, j < i) ∧ (∀ j ∈ st.stIndex, j < i) ∧
  st.keeps.Nodup ∧ st.victims.Nodup ∧ (∀ j, ¬ (j ∈ st.keeps ∧ j ∈ st.victims))

theorem loadStep_inv {A : Type} (st : LoadState) (i : Nat) (f : SrcFeature A)
    (h : LoadInv st i) : LoadInv (loadStep st i f) (i + 1) := by
  obtain ⟨hk, hv, hx, hnk, hnv, hdisj⟩ := h
  unfold loadStep
  split_ifs with h1 h2 h3
  · exact ⟨fun j hj => Nat.lt_succ_of_lt (hk j hj), fun j hj => Nat.lt_succ_of_lt (hv j hj),
      fun j hj => Nat.lt_succ_of_lt (hx j hj), hnk, hnv, hdisj⟩
  · exact ⟨fun j hj => Nat.lt_succ_of_lt (hk j hj), fun j hj => Nat.lt_succ_of_lt (hv j hj),
      fun j hj => Nat.lt_succ_of_lt (hx j hj), hnk, hnv, hdisj⟩
  · refine ⟨fun j hj => Nat.lt_succ_of_lt (hk j hj), ?_, ?_, hnk, ?_, ?_⟩
    · intro j hj
      rcases List.mem_append.mp hj with hj | hj
      · exact Nat.lt_succ_of_lt (hv j hj)
      · rw [List.mem_singleton.mp hj]; exact Nat.lt_succ_self i
    · intro j hj
      rcases List.mem_append.mp hj with hj | hj
      · exact Nat.lt_succ_of_lt (hx j hj)
      · rw [List.mem_singleton.mp hj]; exact Nat.lt_succ_self i
    · apply List.Nodup.append hnv (List.nodup_singleton i)
      intro j hj hj2
      rw [List.mem_singleton.mp hj2] at hj
      exact absurd (hv i hj) (lt_irrefl i)
    · intro j ⟨hjk, hjv⟩
      rcases List.mem_append.mp hjv with hj | hj
      · exact hdisj j ⟨hjk, hj⟩
      · rw [List.mem_singleton.mp hj] at hjk
        exact absurd (hk i hjk) (lt_irrefl i)
  · refine ⟨?_, fun j hj => Nat.lt_succ_of_lt (hv j hj), ?_, ?_, hnv, ?_⟩
    · intro j hj
      rcases List.mem_append.mp hj with hj | hj
      · exact Nat.lt_succ_of_lt (hk j hj)
      · rw [List.mem_singleton.mp hj]; exact Nat.lt_succ_self i
    · intro j hj
      rcases List.mem_append.mp hj with hj | hj
      · exact Nat.lt_succ_of_lt (hx j hj)
      · rw [List.mem_singleton.mp hj]; exact Nat.lt_succ_self i
    · apply List.Nodup.append hnk (List.nodup_singleton i)
      intro j hj hj2
      rw [List.mem_singleton.mp hj2] at hj
      exact absurd (hk i hj) (lt_irrefl i)
    · intro j ⟨hjk, hjv⟩
      rcases List.mem_append.mp hjk with hj | hj
      · exact hdisj j ⟨hj, hjv⟩
      · rw [List.mem_singleton.mp hj] at hjv
        exact absurd (hv i hjv) (lt_irrefl i)

theorem loadAux_inv {A : Type} : ∀ (fs : List (SrcFeature A)) (st : LoadState) (i : Nat),
    LoadInv st i → LoadInv (loadAux st i fs) (i + fs.length) := by
  intro fs
  induction fs with
  | nil => intro st i h; simpa using h
  | cons f fs ih =>
    intro st i h
    have h2 := ih (loadStep st i f) (i + 1) (loadStep_inv st i f h)
    have harith : i + 1 + fs.length = i + (f :: fs).length := by
      simp only [List.length_cons]
      omega
    rw [harith] at h2
    exact h2

theorem load_inv {A : Type} (features : List (SrcFeature A)) (pending : List Int) :
    LoadInv (load features pending) features.length := by
  have h := loadAux_inv features
    { keeps := [], victims := [], stIndex := [], pending := pending, warnings := [] } 0
    (by refine ⟨?_, ?_, ?_, ?_, ?_, ?_⟩ <;> simp)
  simpa using h

theorem loadAux_warnings_mono {A : Type} : ∀ (fs : List (SrcFeature A)) (st : LoadState)
    (i : Nat) (w : RunWarning), w ∈ st.warnings → w ∈ (loadAux st i fs).warnings := by
  intro fs
  induction fs with
  | nil => intro st i w h; exact h
  | cons f fs ih =>
    intro st i w h
    apply ih (loadStep st i f) (i + 1) w
    unfold loadStep
    split_ifs <;> first
      | exact h
      | exact List.mem_append.mpr (Or.inl h)

theorem loadAux_hasGeom {A : Type} (G : List (SrcFeature A)) :
    ∀ (fs : List (SrcFeature A)) (st : LoadState) (i : Nat),
      (∀ k, fs[k]? = G[i + k]?) →
      (∀ j, j ∈ st.keeps ++ st.victims ++ st.stIndex →
        ∃ f, G[j]? = some f ∧ f.hasGeom = true) →
      ∀ j, j ∈ (loadAux st i fs).keeps ++ (loadAux st i fs).victims ++
          (loadAux st i fs).stIndex →
        ∃ f, G[j]? = some f ∧ f.hasGeom = true := by
  intro fs
  induction fs with
  | nil => intro st i _ hst j hj; exact hst j hj
  | cons f fs ih =>
    intro st i hlook hst j hj
    have hlook0 : G[i]? = some f := by
      have h := hlook 0
      simp only [List.getElem?_cons_zero] at h
      have harith : i + 0 = i := by omega
      rw [harith] at h
      exact h.symm
    have hlookS : ∀ k, fs[k]? = G[(i + 1) + k]? := by
      intro k
      have h := hlook (k + 1)
      have harith : i + (k + 1) = (i + 1) + k := by omega
      rw [harith] at h
      simpa using h
    have hst3 : ∀ j2, (j2 ∈ st.keeps ∨ j2 ∈ st.victims ∨ j2 ∈ st.stIndex) →
        ∃ g, G[j2]? = some g ∧ g.hasGeom = true := by
      intro j2 hh
      apply hst j2
      simp only [List.mem_append]
      tauto
    apply ih (loadStep st i f) (i + 1) hlookS ?_ j hj
    intro j2 hj2
    unfold loadStep at hj2
    split_ifs at hj2 with h1 h2 h3
    · exact hst j2 hj2
    · exact hst j2 hj2
    · have hj3 : j2 ∈ st.keeps ∨ j2 ∈ st.victims ∨ j2 ∈ st.stIndex ∨ j2 = i := by
        simp only [List.mem_append, List.mem_singleton] at hj2
        tauto
      rcases hj3 with h | h | h | h
      · exact hst3 j2 (Or.inl h)
      · exact hst3 j2 (Or.inr (Or.inl h))
      · exact hst3 j2 (Or.inr (Or.inr h))
      · rw [h]
        exact ⟨f, hlook0, by simpa using h1⟩
    · have hj3 : j2 ∈ st.keeps ∨ j2 ∈ st.victims ∨ j2 ∈ st.stIndex ∨ j2 = i := by
        simp only [List.mem_append, List.mem_singleton] at hj2
        tauto
      rcases hj3 with h | h | h | h
      · exact hst3 j2 (Or.inl h)
      · exact hst3 j2 (Or.inr (Or.inl h))
      · exact hst3 j2 (Or.inr (Or.inr h))
      · rw [h]
        exact ⟨f, hlook0, by simpa using h1⟩

theorem loadAux_warns_noGeometry {A : Type} :
    ∀ (fs : List (SrcFeature A)) (st : LoadState) (i : Nat) (k : Nat) (f : SrcFeature A),
      fs[k]? = some f → f.hasGeom = false →
      RunWarning.noGeometry (i + k) ∈ (loadAux st i fs).warnings := by
  intro fs
  induction fs with
  | nil => intro st i k f hk; simp at hk
  | cons g fs ih =>
    intro st i k f hk hgeom
    cases k with
    | zero =>
      have hg : g = f := by simpa using hk
      subst hg
      apply loadAux_warnings_mono fs (loadStep st i g) (i + 1)
      unfold loadStep
      rw [if_pos hgeom]
      simp
    | succ k =>
      have hk2 : fs[k]? = some f := by simpa using hk
      have h := ih (loadStep st i g) (i + 1) k f hk2 hgeom
      have harith : i + 1 + k = i + (k + 1) := by omega
      rw [harith] at h
      exact h

/-- Claim C8: a source feature lacking a geometry is dropped by the
loader with a warning. The loop step for such a feature only logs the
warning and leaves the keep list, the victim list, the spatial index and
the pending set untouched (so loading continues with the next feature);
consequently a node index only ever appears in the keep list, the victim
list or the spatial index when its feature has a geometry, and the
warning for each geometry-less feature is in the log. -/
theorem claim_C8_geometryless_dropped {A : Type} :
    (∀ (st : LoadState) (i : Nat) (f : SrcFeature A), f.hasGeom = false →
      loadStep st i f =
        { st with warnings := st.warnings ++ [RunWarning.noGeometry i] }) ∧
    (∀ (fs : List (SrcFeature A)) (pending : List Int) (j : Nat) (f : SrcFeature A),
      fs[j]? = some f → f.hasGeom = false →
      ¬ j ∈ (load fs pending).keeps ∧ ¬ j ∈ (load fs pending).victims ∧
      ¬ j ∈ (load fs pending).stIndex ∧
      RunWarning.noGeometry j ∈ (load fs pending).warnings) := by
  constructor
  · intro st i f hg
    unfold loadStep
    rw [if_pos hg]
  · intro fs pending j f hj hg
    have hmem := loadAux_hasGeom fs fs
      { keeps := [], victims := [], stIndex := [], pending := pending, warnings := [] } 0
      (by intro k; congr 1; omega)
      (by intro j2 hj2; simp at hj2)
    have hnot : ¬ (j ∈ (load fs pending).keeps ++ (load fs pending).victims ++
        (load fs pending).stIndex) := by
      intro hin
      obtain ⟨f2, hf2, hgeom2⟩ := hmem j hin
      rw [hj] at hf2
      cases hf2
      rw [hg] at hgeom2
      cases hgeom2
    refine ⟨?_, ?_, ?_, ?_⟩
    · intro h; exact hnot (List.mem_append.mpr (Or.inl (List.mem_append.mpr (Or.inl h))))
    · intro h; exact hnot (List.mem_append.mpr (Or.inl (List.mem_append.mpr (Or.inr h))))
    · intro h; exact hnot (List.mem_append.mpr (Or.inr h))
    · have h := loadAux_warns_noGeometry fs
        { keeps := [], victims := [], stIndex := [], pending := pending, warnings := [] }
        0 j f hj hg
      simpa using h

/-- A feature with no geometry, used by the loader witnesses. -/
def fC8 : SrcFeature Nat := { fid := 5, hasGeom := false, prepOk := true, attrs := 0 }

/-- A loader input whose first feature lacks a geometry. -/
def fsC8 : List (SrcFeature Nat) :=
  [fC8, { fid := 6, hasGeom := true, prepOk := true, attrs := 1 }]

/-- Claim C8 witness: the drop theorem applied to a concrete stream whose
first feature has no geometry. -/
theorem claim_C8_geometryless_dropped_witness :
    (loadStep { keeps := [], victims := [], stIndex := [], pending := [5], warnings := [] } 0 fC8
      = { keeps := [], victims := [], stIndex := [], pending := [5],
          warnings := [RunWarning.noGeometry 0] }) ∧
    (¬ 0 ∈ (load fsC8 [5]).keeps ∧ ¬ 0 ∈ (load fsC8 [5]).victims ∧
      ¬ 0 ∈ (load fsC8 [5]).stIndex ∧
      RunWarning.noGeometry 0 ∈ (load fsC8 [5]).warnings) := by
  constructor
  · have h := (claim_C8_geometryless_dropped (A := Nat)).1
      { keeps := [], victims := [], stIndex := [], pending := [5], warnings := [] } 0 fC8 rfl
    simpa using h
  · exact (claim_C8_geometryless_dropped (A := Nat)).2 fsC8 [5] 0 fC8 (by simp [fsC8]) rfl

/-! ## The assignment pass

The per-victim loop walks the victim list in loader order; each victim
with a chosen neighbor is appended (by addCreatureToMerge) to that
neighbor creatures-to-merge list. The merge lists are represented here by
the list of (victim, chosen neighbor) pairs in processing order; the list
a node g accumulates is the victims assigned to g, in that order. -/

/-- The assignment loop over the victim list: the assignment pairs and
the warnings of the resolver, both in processing order. -/
def resolveAll (env : GeoEnv) (t : EliminateMergeType) (victims : List Nat) :
    List (Nat × Nat) × List RunWarning :=
  victims.foldl (fun acc v =>
    match resolveVictim env t v with
    | (some g, ws) => (acc.1 ++ [(v, g)], acc.2 ++ ws)
    | (none, ws) => (acc.1, acc.2 ++ ws)) ([], [])

/-- The creatures-to-merge list of node g, read off the assignment pairs. -/
def mergeChildren (asg : List (Nat × Nat)) (g : Nat) : List Nat :=
  (asg.filter (fun p => p.2 = g)).map Prod.fst

/-! ### Assignment lemmas -/

theorem resolveAll_fst_aux (env : GeoEnv) (t : EliminateMergeType) :
    ∀ (victims : List Nat) (acc : List (Nat × Nat) × List RunWarning),
      (victims.foldl (fun acc v =>
        match resolveVictim env t v with
        | (some g, ws) => (acc.1 ++ [(v, g)], acc.2 ++ ws)
        | (none, ws) => (acc.1, acc.2 ++ ws)) acc).1 =
      acc.1 ++ victims.filterMap (fun v =>
        (resolveVictim env t v).1.map (fun g => (v, g))) := by
  intro victims
  induction victims with
  | nil => intro acc; simp
  | cons v vs ih =>
    intro acc
    rw [List.foldl_cons, List.filterMap_cons]
    cases hrv : resolveVictim env t v with
    | mk o ws =>
      cases o with
      | none =>
        dsimp only
        rw [ih]
        simp
      | some g =>
        dsimp only
        rw [ih]
        simp

theorem resolveAll_fst (env : GeoEnv) (t : EliminateMergeType) (victims : List Nat) :
    (resolveAll env t victims).1 =
      victims.filterMap (fun v => (resolveVictim env t v).1.map (fun g => (v, g))) := by
  unfold resolveAll
  rw [resolveAll_fst_aux]
  rfl

theorem mem_resolveAll_fst (env : GeoEnv) (t : EliminateMergeType) (victims : List Nat)
    (v g : Nat) :
    (v, g) ∈ (resolveAll env t victims).1 ↔
      v ∈ victims ∧ (resolveVictim env t v).1 = some g := by
  rw [resolveAll_fst, List.mem_filterMap]
  constructor
  · rintro ⟨w, hw, hmap⟩
    cases ho : (resolveVictim env t w).1 with
    | none => rw [ho] at hmap; cases hmap
    | some g2 =>
      rw [ho] at hmap
      simp only [Option.map_some'] at hmap
      have hv : w = v ∧ g2 = g := by simpa using hmap
      rw [← hv.1, ho, hv.2]
      exact ⟨hw, rfl⟩
  · rintro ⟨hv, hrv⟩
    exact ⟨v, hv, by rw [hrv]; rfl⟩

theorem mem_mergeChildren (asg : List (Nat × Nat)) (v g : Nat) :
    v ∈ mergeChildren asg g ↔ (v, g) ∈ asg := by
  unfold mergeChildren
  rw [List.mem_map]
  constructor
  · rintro ⟨p, hp, hfst⟩
    have h2 := List.mem_filter.mp hp
    have hsnd : p.2 = g := by simpa using h2.2
    have : p = (v, g) := by
      cases p
      simp only [Prod.mk.injEq]
      exact ⟨hfst, hsnd⟩
    rw [← this]
    exact h2.1
  · intro hp
    exact ⟨(v, g), List.mem_filter.mpr ⟨hp, by simp⟩, rfl⟩

theorem mem_touchingNeighbors_ne (env : GeoEnv) (v : Nat) (e : NeighborEdge)
    (h : e ∈ touchingNeighbors env v) : e.creature ≠ v := by
  unfold touchingNeighbors at h
  obtain ⟨c, hc, hmap⟩ := List.mem_filterMap.mp h
  have hcv : c ≠ v := by
    have h2 := List.mem_filter.mp hc
    simpa using h2.2
  by_cases ht : env.touches v c
  · rw [if_pos ht] at hmap
    cases hmap
    exact hcv
  · rw [if_neg ht] at hmap
    cases hmap

theorem resolveVictim_ne_self (env : GeoEnv) (t : EliminateMergeType) (v g : Nat)
    (h : (resolveVictim env t v).1 = some g) : g ≠ v := by
  unfold resolveVictim at h
  by_cases h1 : candidatesOf env v = []
  · rw [if_pos h1] at h
    simp at h
  · rw [if_neg h1] at h
    cases hfind : findNeighbor env.area t (touchingNeighbors env v) with
    | none => rw [hfind] at h; simp at h
    | some nb =>
      rw [hfind] at h
      have hg : nb.creature = g := by simpa using h
      have hmem : nb ∈ touchingNeighbors env v := by
        obtain ⟨x, xs, hxs⟩ : ∃ x xs, touchingNeighbors env v = x :: xs := by
          cases htn : touchingNeighbors env v with
          | nil =>
            rw [htn] at hfind
            cases t <;> simp [findNeighbor, minElement] at hfind
          | cons a l => exact ⟨a, l, rfl⟩
        rw [hxs] at hfind
        cases t with
        | largestArea =>
          obtain ⟨nb2, hf2, hm2, _⟩ := findNeighbor_largest_spec env.area x xs
          rw [hfind] at hf2
          have heq : nb = nb2 := Option.some.inj hf2
          rw [← heq] at hm2
          rw [hxs]
          exact hm2
        | smallestArea =>
          obtain ⟨nb2, hf2, hm2, _⟩ := findNeighbor_smallest_spec env.area x xs
          rw [hfind] at hf2
          have heq : nb = nb2 := Option.some.inj hf2
          rw [← heq] at hm2
          rw [hxs]
          exact hm2
        | longestBoundary =>
          obtain ⟨nb2, hf2, hm2, _⟩ := findNeighbor_longest_spec env.area x xs
          rw [hfind] at hf2
          have heq : nb = nb2 := Option.some.inj hf2
          rw [← heq] at hm2
          rw [hxs]
          exact hm2
      rw [← hg]
      exact mem_touchingNeighbors_ne env v nb hmem

/-! ## The merge-graph collapser

allCreaturesToMerge is a plain recursion with no visited set: the
collection for a node walks its creatures-to-merge list in order,
emitting each entry followed by that entry's own collection. The
recursion is modelled with fuel; the theory below shows that on every
graph the resolver can produce (the chosen edge is a function of the
victim and never points at the victim itself), the collection from a
survivor stabilizes at fuel (number of victims + 1), holds no
duplicates, and never reaches a victim lying on a chosen-edge cycle. -/

/-- The creatures-to-merge list of node g, as a function of the victim
list (in processing order) and the chosen-edge function: the victims
whose chosen neighbor is g, in victim order. -/
def childrenOf (victims : List Nat) (chosen : Nat → Option Nat) (g : Nat) : List Nat :=
  victims.filter (fun v => chosen v = some g)

/-- The fueled collection of allCreaturesToMerge. -/
def collectMerge (children : Nat → List Nat) : Nat → Nat → List Nat
  | 0, _ => []
  | f + 1, g => (children g).flatMap (fun v => v :: collectMerge children f v)

/-- Iteration of the chosen-edge function. -/
def chosenPow (chosen : Nat → Option Nat) : Nat → Nat → Option Nat
  | 0, v => some v
  | k + 1, v => (chosen v).bind (chosenPow chosen k)

/-- A chain of length k from u up to g: k chosen-steps starting at u end
at g, and every node strictly before the endpoint is a victim. -/
def ChainsTo (victims : List Nat) (chosen : Nat → Option Nat) (u k g : Nat) : Prop :=
  chosenPow chosen k u = some g ∧
  ∀ i, i < k → ∃ w ∈ victims, chosenPow chosen i u = some w

/-- A victim on a closed chosen-edge cycle. -/
def CycleVictim (victims : List Nat) (chosen : Nat → Option Nat) (v : Nat) : Prop :=
  ∃ k, 1 ≤ k ∧ ChainsTo victims chosen v k v

/-! ### Chain lemmas -/

theorem chosenPow_add (chosen : Nat → Option Nat) :
    ∀ (a b : Nat) (v : Nat),
      chosenPow chosen (a + b) v = (chosenPow chosen a v).bind (chosenPow chosen b) := by
  intro a
  induction a with
  | zero => intro b v; simp [chosenPow]
  | succ a ih =>
    intro b v
    have harith : a + 1 + b = (a + b) + 1 := by omega
    rw [harith]
    show (chosen v).bind (chosenPow chosen (a + b)) = _
    show _ = ((chosen v).bind (chosenPow chosen a)).bind (chosenPow chosen b)
    cases chosen v with
    | none => rfl
    | some w => exact ih b w

theorem chosenPow_succ_right (chosen : Nat → Option Nat) (k : Nat) (v : Nat) :
    chosenPow chosen (k + 1) v = (chosenPow chosen k v).bind chosen := by
  have h := chosenPow_add chosen k 1 v
  rw [h]
  cases chosenPow chosen k v with
  | none => rfl
  | some w =>
    show chosenPow chosen 1 w = chosen w
    show (chosen w).bind (chosenPow chosen 0) = chosen w
    cases chosen w <;> rfl

theorem mem_childrenOf (victims : List Nat) (chosen : Nat → Option Nat) (v g : Nat) :
    v ∈ childrenOf victims chosen g ↔ v ∈ victims ∧ chosen v = some g := by
  unfold childrenOf
  rw [List.mem_filter]
  simp

theorem mem_collectMerge_iff (victims : List Nat) (chosen : Nat → Option Nat) :
    ∀ (f : Nat) (g u : Nat),
      u ∈ collectMerge (childrenOf victims chosen) f g ↔
        ∃ k, 1 ≤ k ∧ k ≤ f ∧ ChainsTo victims chosen u k g := by
  intro f
  induction f with
  | zero =>
    intro g u
    simp only [collectMerge, List.not_mem_nil, false_iff]
    rintro ⟨k, hk1, hk0, _⟩
    omega
  | succ f ih =>
    intro g u
    simp only [collectMerge, List.mem_flatMap]
    constructor
    · rintro ⟨v, hv, hmem⟩
      obtain ⟨hvv, hvg⟩ := (mem_childrenOf victims chosen v g).mp hv
      rcases List.mem_cons.mp hmem with huv | hrec
      · refine ⟨1, le_rfl, by omega, ?_, ?_⟩
        · show chosenPow chosen 1 u = some g
          rw [chosenPow_succ_right]
          show (chosenPow chosen 0 u).bind chosen = some g
          show (some u).bind chosen = some g
          rw [huv]
          simpa using hvg
        · intro i hi
          have hi0 : i = 0 := by omega
          rw [hi0, huv]
          exact ⟨v, hvv, rfl⟩
      · obtain ⟨k, hk1, hkf, hpow, hmid⟩ := (ih v u).mp hrec
        refine ⟨k + 1, by omega, by omega, ?_, ?_⟩
        · rw [chosenPow_succ_right, hpow]
          simpa using hvg
        · intro i hi
          by_cases hik : i < k
          · exact hmid i hik
          · have hieq : i = k := by omega
            rw [hieq, hpow]
            exact ⟨v, hvv, rfl⟩
    · rintro ⟨k, hk1, hkf, hpow, hmid⟩
      cases k with
      | zero => omega
      | succ k =>
        cases k with
        | zero =>
          have hu : chosen u = some g := by
            rw [chosenPow_succ_right] at hpow
            simpa using hpow
          have huv : u ∈ victims := by
            obtain ⟨w, hwv, hw⟩ := hmid 0 (by omega)
            have : w = u := by
              have h2 : some w = some u := hw.symm
              exact Option.some.inj h2
            rw [← this]
            exact hwv
          exact ⟨u, (mem_childrenOf victims chosen u g).mpr ⟨huv, hu⟩,
            List.mem_cons_self u _⟩
        | succ k =>
          obtain ⟨w, hwv, hw⟩ := hmid (k + 1) (by omega)
          have hcw : chosen w = some g := by
            rw [chosenPow_succ_right, hw] at hpow
            simpa using hpow
          refine ⟨w, (mem_childrenOf victims chosen w g).mpr ⟨hwv, hcw⟩, ?_⟩
          apply List.mem_cons_of_mem
          apply (ih w u).mpr
          refine ⟨k + 1, by omega, by omega, hw, ?_⟩
          intro i hi
          exact hmid i (by omega)

theorem ChainsTo_shift (victims : List Nat) (chosen : Nat → Option Nat)
    (u a b v g : Nat) (hab : a ≤ b)
    (hch : ChainsTo victims chosen u b g) (hv : chosenPow chosen a u = some v) :
    ChainsTo victims chosen v (b - a) g := by
  obtain ⟨hpow, hmid⟩ := hch
  have hsplit : chosenPow chosen b u =
      (chosenPow chosen a u).bind (chosenPow chosen (b - a)) := by
    have h := chosenPow_add chosen a (b - a) u
    have harith : a + (b - a) = b := by omega
    rw [harith] at h
    exact h
  constructor
  · rw [hsplit, hv] at hpow
    simpa using hpow
  · intro i hi
    obtain ⟨w, hwv, hw⟩ := hmid (a + i) (by omega)
    refine ⟨w, hwv, ?_⟩
    have h2 : chosenPow chosen (a + i) u = (chosenPow chosen a u).bind (chosenPow chosen i) :=
      chosenPow_add chosen a i u
    rw [h2, hv] at hw
    simpa using hw

theorem cycle_of_children_chain (victims : List Nat) (chosen : Nat → Option Nat)
    (g v w m : Nat)
    (hv : v ∈ childrenOf victims chosen g) (hw : w ∈ childrenOf victims chosen g)
    (hch : ChainsTo victims chosen v m w) :
    ChainsTo victims chosen g m g := by
  obtain ⟨hvv, hvg⟩ := (mem_childrenOf victims chosen v g).mp hv
  obtain ⟨hwv, hwg⟩ := (mem_childrenOf victims chosen w g).mp hw
  obtain ⟨hpow, hmid⟩ := hch
  have hstep : ∀ i, chosenPow chosen (i + 1) v = chosenPow chosen i g := by
    intro i
    have h2 : chosenPow chosen (1 + i) v = (chosenPow chosen 1 v).bind (chosenPow chosen i) :=
      chosenPow_add chosen 1 i v
    have h1 : chosenPow chosen 1 v = some g := by
      rw [chosenPow_succ_right]
      show (chosenPow chosen 0 v).bind chosen = some g
      show (some v).bind chosen = some g
      simpa using hvg
    have harith : i + 1 = 1 + i := by omega
    rw [harith, h2, h1]
    rfl
  constructor
  · have h3 : chosenPow chosen (m + 1) v = (chosenPow chosen m v).bind chosen :=
      chosenPow_succ_right chosen m v
    rw [hpow] at h3
    have h4 : chosenPow chosen (m + 1) v = some g := by
      rw [h3]
      simpa using hwg
    rw [← hstep m]
    exact h4
  · intro i hi
    rw [← hstep i]
    by_cases hik : i + 1 < m
    · exact hmid (i + 1) hik
    · have hieq : i + 1 = m := by omega
      rw [hieq, hpow]
      exact ⟨w, hwv, rfl⟩

theorem chain_le_length (victims : List Nat) (chosen : Nat → Option Nat)
    (u k s : Nat) (hs : ¬ s ∈ victims) (hch : ChainsTo victims chosen u k s) :
    k ≤ victims.length := by
  obtain ⟨hpow, hmid⟩ := hch
  by_contra hgt
  push_neg at hgt
  have hwit : ∀ i, i < k → ((chosenPow chosen i u).getD 0) ∈ victims ∧
      chosenPow chosen i u = some ((chosenPow chosen i u).getD 0) := by
    intro i hi
    obtain ⟨w, hwv, hw⟩ := hmid i hi
    rw [hw]
    exact ⟨hwv, rfl⟩
  have hinj : ∀ i ∈ Finset.range k, ∀ j ∈ Finset.range k,
      (chosenPow chosen i u).getD 0 = (chosenPow chosen j u).getD 0 → i = j := by
    intro i hi j hj heq
    rw [Finset.mem_range] at hi hj
    by_contra hne
    wlog hij : i < j generalizing i j
    · exact this j hj i hi heq.symm (Ne.symm hne) (by omega)
    have hsame : chosenPow chosen i u = chosenPow chosen j u := by
      rw [(hwit i hi).2, (hwit j hj).2, heq]
    have hshift : chosenPow chosen (i + (k - j)) u = some s := by
      have h2 := chosenPow_add chosen i (k - j) u
      have h3 := chosenPow_add chosen j (k - j) u
      have harith : j + (k - j) = k := by omega
      rw [harith, hpow] at h3
      rw [h2, hsame, ← h3]
    obtain ⟨w, hwv, hw⟩ := hmid (i + (k - j)) (by omega)
    rw [hshift] at hw
    have hws : w = s := Option.some.inj hw.symm
    rw [hws] at hwv
    exact hs hwv
  have hcard := Finset.card_le_card_of_injOn
    (fun i => (chosenPow chosen i u).getD 0)
    (fun i hi => List.mem_toFinset.mpr (hwit i (Finset.mem_range.mp hi)).1)
    (fun i hi j hj heq => hinj i (Finset.mem_coe.mp hi) j (Finset.mem_coe.mp hj) heq)
  rw [Finset.card_range] at hcard
  have hfin : victims.toFinset.card ≤ victims.length := List.toFinset_card_le victims
  omega

/-- Every chain reaching g has length at most d. -/
def DepthBound (victims : List Nat) (chosen : Nat → Option Nat) (g d : Nat) : Prop :=
  ∀ u k, ChainsTo victims chosen u k g → k ≤ d

theorem flatMap_cons_congr (l : List Nat) (F G : Nat → List Nat)
    (h : ∀ v ∈ l, F v = G v) :
    l.flatMap (fun v => v :: F v) = l.flatMap (fun v => v :: G v) := by
  induction l with
  | nil => rfl
  | cons x xs ih =>
    simp only [List.flatMap_cons]
    rw [h x (List.mem_cons_self x xs), ih (fun v hv => h v (List.mem_cons_of_mem x hv))]

theorem depthBound_children (victims : List Nat) (chosen : Nat → Option Nat)
    (g d v : Nat) (hd : DepthBound victims chosen g (d + 1))
    (hv : v ∈ childrenOf victims chosen g) : DepthBound victims chosen v d := by
  intro u k hch
  obtain ⟨hvv, hvg⟩ := (mem_childrenOf victims chosen v g).mp hv
  obtain ⟨hpow, hmid⟩ := hch
  have hext : ChainsTo victims chosen u (k + 1) g := by
    constructor
    · rw [chosenPow_succ_right, hpow]
      simpa using hvg
    · intro i hi
      by_cases hik : i < k
      · exact hmid i hik
      · have hieq : i = k := by omega
        rw [hieq, hpow]
        exact ⟨v, hvv, rfl⟩
  have h2 := hd u (k + 1) hext
  omega

theorem collectMerge_stab (victims : List Nat) (chosen : Nat → Option Nat) :
    ∀ (d g : Nat), DepthBound victims chosen g d →
      ∀ f, d ≤ f →
        collectMerge (childrenOf victims chosen) f g =
          collectMerge (childrenOf victims chosen) d g := by
  intro d
  induction d with
  | zero =>
    intro g hd f _
    have hch : childrenOf victims chosen g = [] := by
      cases hc : childrenOf victims chosen g with
      | nil => rfl
      | cons v vs =>
        have hv : v ∈ childrenOf victims chosen g := by rw [hc]; exact List.mem_cons_self v vs
        obtain ⟨hvv, hvg⟩ := (mem_childrenOf victims chosen v g).mp hv
        have hchain : ChainsTo victims chosen v 1 g := by
          constructor
          · rw [chosenPow_succ_right]
            show (chosenPow chosen 0 v).bind chosen = some g
            show (some v).bind chosen = some g
            simpa using hvg
          · intro i hi
            have hi0 : i = 0 := by omega
            rw [hi0]
            exact ⟨v, hvv, rfl⟩
        have := hd v 1 hchain
        omega
    cases f with
    | zero => rfl
    | succ f =>
      show (childrenOf victims chosen g).flatMap _ = []
      rw [hch]
      rfl
  | succ d ih =>
    intro g hd f hf
    cases f with
    | zero => omega
    | succ f =>
      show (childrenOf victims chosen g).flatMap (fun v => v :: collectMerge _ f v) =
        (childrenOf victims chosen g).flatMap (fun v => v :: collectMerge _ d v)
      apply flatMap_cons_congr
      intro v hv
      have hdv : DepthBound victims chosen v d := depthBound_children victims chosen g d v hd hv
      calc collectMerge (childrenOf victims chosen) f v
          = collectMerge (childrenOf victims chosen) d v := ih v hdv f (by omega)

theorem collect_disjoint_pieces (victims : List Nat) (chosen : Nat → Option Nat)
    (g : Nat) (hnc : ¬ ∃ k, 1 ≤ k ∧ ChainsTo victims chosen g k g)
    (f : Nat) (v w : Nat) (hv : v ∈ childrenOf victims chosen g)
    (hw : w ∈ childrenOf victims chosen g) (hne : v ≠ w) :
    ∀ u, u ∈ v :: collectMerge (childrenOf victims chosen) f v →
      u ∈ w :: collectMerge (childrenOf victims chosen) f w → False := by
  intro u hu1 hu2
  have hchain : ∀ (x y : Nat), x ∈ childrenOf victims chosen g →
      y ∈ childrenOf victims chosen g →
      u = x ∨ u ∈ collectMerge (childrenOf victims chosen) f x →
      u ∈ collectMerge (childrenOf victims chosen) f y →
      x = y ∨ False := by
    intro x y hx hy hux huy
    obtain ⟨b, hb1, _, hchb⟩ := (mem_collectMerge_iff victims chosen f y u).mp huy
    rcases hux with hux | hux
    · -- u is x itself: a chain x to y of length b
      rw [hux] at hchb
      right
      exact hnc ⟨b, hb1, cycle_of_children_chain victims chosen g x y b hx hy hchb⟩
    · obtain ⟨a, ha1, _, hcha⟩ := (mem_collectMerge_iff victims chosen f x u).mp hux
      rcases lt_trichotomy a b with hab | hab | hab
      · right
        have hshift := ChainsTo_shift victims chosen u a b x y (by omega) hchb hcha.1
        refine hnc ⟨b - a, by omega, ?_⟩
        exact cycle_of_children_chain victims chosen g x y (b - a) hx hy hshift
      · left
        rw [hab] at hcha
        have h2 : some x = some y := by rw [← hcha.1, ← hchb.1]
        exact Option.some.inj h2
      · right
        have hshift := ChainsTo_shift victims chosen u b a y x (by omega) hcha hchb.1
        refine hnc ⟨a - b, by omega, ?_⟩
        exact cycle_of_children_chain victims chosen g y x (a - b) hy hx hshift
  rcases List.mem_cons.mp hu1 with hux | hux <;>
    rcases List.mem_cons.mp hu2 with huy | huy
  · exact hne (hux.symm.trans huy)
  · rcases hchain v w hv hw (Or.inl hux) huy with h | h
    · exact hne h
    · exact h
  · rcases hchain w v hw hv (Or.inl huy) hux with h | h
    · exact hne h.symm
    · exact h
  · rcases hchain v w hv hw (Or.inr hux) huy with h | h
    · exact hne h
    · exact h

theorem notOnCycle_children (victims : List Nat) (chosen : Nat → Option Nat)
    (g v : Nat) (hnc : ¬ ∃ k, 1 ≤ k ∧ ChainsTo victims chosen g k g)
    (hv : v ∈ childrenOf victims chosen g) :
    ¬ ∃ k, 1 ≤ k ∧ ChainsTo victims chosen v k v := by
  rintro ⟨k, hk, hch⟩
  exact hnc ⟨k, hk, cycle_of_children_chain victims chosen g v v k hv hv hch⟩

theorem collectMerge_nodup (victims : List Nat) (chosen : Nat → Option Nat)
    (hnd : victims.Nodup) :
    ∀ (f g : Nat), (¬ ∃ k, 1 ≤ k ∧ ChainsTo victims chosen g k g) →
      (collectMerge (childrenOf victims chosen) f g).Nodup := by
  intro f
  induction f with
  | zero => intro g _; exact List.nodup_nil
  | succ f ih =>
    intro g hnc
    show ((childrenOf victims chosen g).flatMap
      (fun v => v :: collectMerge (childrenOf victims chosen) f v)).Nodup
    rw [List.nodup_flatMap]
    constructor
    · intro v hv
      refine List.nodup_cons.mpr ⟨?_, ih v (notOnCycle_children victims chosen g v hnc hv)⟩
      intro hmem
      obtain ⟨k, hk1, _, hch⟩ := (mem_collectMerge_iff victims chosen f v v).mp hmem
      exact hnc ⟨k, hk1, cycle_of_children_chain victims chosen g v v k hv hv hch⟩
    · have hchildnd : (childrenOf victims chosen g).Nodup := List.Nodup.filter _ hnd
      apply List.Pairwise.imp_of_mem ?_ hchildnd
      intro v w hv hw hne
      intro u hu1 hu2
      exact collect_disjoint_pieces victims chosen g hnc f v w hv hw hne u hu1 hu2

theorem cycle_iterates_in_victims (victims : List Nat) (chosen : Nat → Option Nat)
    (v : Nat) (hcv : CycleVictim victims chosen v) :
    ∀ j, ∃ w ∈ victims, chosenPow chosen j v = some w := by
  obtain ⟨k, hk1, hcyc⟩ := hcv
  intro j
  induction j using Nat.strong_induction_on with
  | _ j ihj =>
    by_cases hjk : j < k
    · exact hcyc.2 j hjk
    · obtain ⟨w, hwv, hw⟩ := ihj (j - k) (by omega)
      refine ⟨w, hwv, ?_⟩
      have h2 := chosenPow_add chosen k (j - k) v
      have harith : k + (j - k) = j := by omega
      rw [harith] at h2
      rw [h2, hcyc.1]
      simpa using hw

theorem cycle_not_collected (victims : List Nat) (chosen : Nat → Option Nat)
    (s v : Nat) (hs : ¬ s ∈ victims) (hcv : CycleVictim victims chosen v) :
    ∀ f, ¬ v ∈ collectMerge (childrenOf victims chosen) f s := by
  intro f hmem
  obtain ⟨m, _, _, hch⟩ := (mem_collectMerge_iff victims chosen f s v).mp hmem
  obtain ⟨w, hwv, hw⟩ := cycle_iterates_in_victims victims chosen v hcv m
  rw [hch.1] at hw
  have hws : s = w := Option.some.inj hw
  rw [← hws] at hwv
  exact hs hwv

theorem collect_root_unique (victims : List Nat) (chosen : Nat → Option Nat)
    (s t v : Nat) (hs : ¬ s ∈ victims) (ht : ¬ t ∈ victims) (f fb : Nat)
    (h1 : v ∈ collectMerge (childrenOf victims chosen) f s)
    (h2 : v ∈ collectMerge (childrenOf victims chosen) fb t) : s = t := by
  obtain ⟨a, _, _, hcha⟩ := (mem_collectMerge_iff victims chosen f s v).mp h1
  obtain ⟨b, _, _, hchb⟩ := (mem_collectMerge_iff victims chosen fb t v).mp h2
  rcases lt_trichotomy a b with hab | hab | hab
  · obtain ⟨w, hwv, hw⟩ := hchb.2 a hab
    rw [hcha.1] at hw
    have hws : s = w := Option.some.inj hw
    rw [← hws] at hwv
    exact absurd hwv hs
  · rw [hab] at hcha
    have h3 : some s = some t := by rw [← hcha.1, ← hchb.1]
    exact Option.some.inj h3
  · obtain ⟨w, hwv, hw⟩ := hcha.2 b hab
    rw [hchb.1] at hw
    have hws : t = w := Option.some.inj hw
    rw [← hws] at hwv
    exact absurd hwv ht

/-- Claim C7: on any assignment graph the resolver can produce (the
victim list has no repeats, the chosen edge is a function of the victim
and never points at the victim itself), the collection of
allCreaturesToMerge from any survivor terminates: it is stable once the
fuel reaches the number of victims, never collects a node twice, and a
victim on a closed chosen-edge cycle (from which no survivor is
reachable) appears in no survivor collection - such victims are dropped
without any output or diagnostic. -/
theorem claim_C7_collapser_termination (victims : List Nat) (chosen : Nat → Option Nat)
    (s : Nat) (hnd : victims.Nodup) (_hself : ∀ v, chosen v ≠ some v)
    (hs : ¬ s ∈ victims) :
    (∀ f, victims.length ≤ f →
      collectMerge (childrenOf victims chosen) f s =
        collectMerge (childrenOf victims chosen) victims.length s) ∧
    (∀ f, (collectMerge (childrenOf victims chosen) f s).Nodup) ∧
    (∀ v, CycleVictim victims chosen v →
      ∀ f, ¬ v ∈ collectMerge (childrenOf victims chosen) f s) := by
  have hnc : ¬ ∃ k, 1 ≤ k ∧ ChainsTo victims chosen s k s := by
    rintro ⟨k, hk, hch⟩
    obtain ⟨w, hwv, hw⟩ := hch.2 0 (by omega)
    have hws : w = s := Option.some.inj hw.symm
    rw [hws] at hwv
    exact hs hwv
  have hdb : DepthBound victims chosen s victims.length := by
    intro u k hch
    exact chain_le_length victims chosen u k s hs hch
  refine ⟨?_, ?_, ?_⟩
  · intro f hf
    exact collectMerge_stab victims chosen victims.length s hdb f hf
  · intro f
    exact collectMerge_nodup victims chosen hnd f s hnc
  · intro v hcv f
    exact cycle_not_collected victims chosen s v hs hcv f

/-- The chosen-edge function of the collapser witness: victims 1 and 2
chain down to survivor 0, victims 3 and 4 form a closed two-cycle. -/
def chosenC7 : Nat → Option Nat := fun v =>
  if v = 1 then some 0
  else if v = 2 then some 1
  else if v = 3 then some 4
  else if v = 4 then some 3
  else none

theorem chosenC7_ne_self : ∀ v, chosenC7 v ≠ some v := by
  intro v
  unfold chosenC7
  split_ifs with h1 h2 h3 h4 <;> simp_all

/-- Claim C7 witness: the collapser theorem applied to a concrete graph
with a two-victim chain below survivor 0 and a closed victim cycle. -/
theorem claim_C7_collapser_termination_witness :
    ([1, 2, 3, 4] : List Nat).Nodup ∧ (¬ (0 : Nat) ∈ ([1, 2, 3, 4] : List Nat)) ∧
    ((∀ f, ([1, 2, 3, 4] : List Nat).length ≤ f →
      collectMerge (childrenOf [1, 2, 3, 4] chosenC7) f 0 =
        collectMerge (childrenOf [1, 2, 3, 4] chosenC7) ([1, 2, 3, 4] : List Nat).length 0) ∧
    (∀ f, (collectMerge (childrenOf [1, 2, 3, 4] chosenC7) f 0).Nodup) ∧
    (∀ v, CycleVictim [1, 2, 3, 4] chosenC7 v →
      ∀ f, ¬ v ∈ collectMerge (childrenOf [1, 2, 3, 4] chosenC7) f 0)) :=
  ⟨by decide, by decide,
    claim_C7_collapser_termination [1, 2, 3, 4] chosenC7 0 (by decide) chosenC7_ne_self
      (by decide)⟩

/-! ## The emitter

The emit loop of EliminatePolygonsByFID walks the keep list in loader
order. For each survivor it gathers the transitively assigned victims
with allCreaturesToMerge, unions the geometries (the merged list of the
output row stands for that union input), and writes one feature through
CopyFeature, which copies every attribute field of the survivor in
order. A write failure only logs a warning and the loop moves on to the
next survivor. -/

/-- An output row: the survivor node it was emitted from, the attribute
tuple copied from that survivor, and the victims merged into it. -/
structure OutRow (A : Type) where
  src : Nat
  attrs : Option A
  merged : List Nat
deriving DecidableEq, Repr

/-- The output row CopyFeature builds for one survivor. -/
def emitOne {A : Type} (features : List (SrcFeature A)) (children : Nat → List Nat)
    (fuel : Nat) (k : Nat) : OutRow A :=
  { src := k
    attrs := (features[k]?).map (fun f => f.attrs)
    merged := collectMerge children fuel k }

/-- The emit loop: the rows written and the warnings logged. -/
def emitAll {A : Type} (env : GeoEnv) (features : List (SrcFeature A))
    (children : Nat → List Nat) (fuel : Nat) (keeps : List Nat) :
    List (OutRow A) × List RunWarning :=
  keeps.foldl (fun acc k =>
    if env.writeOk k then (acc.1 ++ [emitOne features children fuel k], acc.2)
    else (acc.1, acc.2 ++ [RunWarning.failedWrite k])) ([], [])

theorem emitAll_aux {A : Type} (env : GeoEnv) (features : List (SrcFeature A))
    (children : Nat → List Nat) (fuel : Nat) :
    ∀ (keeps : List Nat) (acc : List (OutRow A) × List RunWarning),
      keeps.foldl (fun acc k =>
        if env.writeOk k then (acc.1 ++ [emitOne features children fuel k], acc.2)
        else (acc.1, acc.2 ++ [RunWarning.failedWrite k])) acc =
      (acc.1 ++ (keeps.filter env.writeOk).map (emitOne features children fuel),
       acc.2 ++ (keeps.filter (fun k => ! env.writeOk k)).map RunWarning.failedWrite) := by
  intro keeps
  induction keeps with
  | nil => intro acc; simp
  | cons k ks ih =>
    intro acc
    rw [List.foldl_cons]
    by_cases hw : env.writeOk k
    · rw [if_pos hw, ih]
      rw [List.filter_cons_of_pos (by simpa using hw),
        List.filter_cons_of_neg (by simpa using hw)]
      simp
    · rw [if_neg hw, ih]
      rw [List.filter_cons_of_neg (by simpa using hw),
        List.filter_cons_of_pos (by simpa [Bool.not_eq_true] using hw)]
      simp
  
theorem emitAll_eq {A : Type} (env : GeoEnv) (features : List (SrcFeature A))
    (children : Nat → List Nat) (fuel : Nat) (keeps : List Nat) :
    emitAll env features children fuel keeps =
      ((keeps.filter env.writeOk).map (emitOne features children fuel),
       (keeps.filter (fun k => ! env.writeOk k)).map RunWarning.failedWrite) := by
  unfold emitAll
  rw [emitAll_aux]
  simp

/-- Claim C3: a per-feature write failure in the emit loop is logged as
a warning and does not abort the run. The rows written are exactly the
surviving features whose write succeeded, regardless of failures
in between, and the failures each leave one warning; splitting the keep
list around a failing survivor shows the earlier rows retained and
emission continuing over the remaining survivors. -/
theorem claim_C3_emit_continues {A : Type} (env : GeoEnv) (features : List (SrcFeature A))
    (children : Nat → List Nat) (fuel : Nat) :
    (∀ keeps : List Nat,
      emitAll env features children fuel keeps =
        ((keeps.filter env.writeOk).map (emitOne features children fuel),
         (keeps.filter (fun k => ! env.writeOk k)).map RunWarning.failedWrite)) ∧
    (∀ (pre : List Nat) (k : Nat) (post : List Nat), env.writeOk k = false →
      (emitAll env features children fuel (pre ++ k :: post)).1 =
        (emitAll env features children fuel pre).1 ++
          (emitAll env features children fuel post).1 ∧
      (emitAll env features children fuel (pre ++ k :: post)).2 =
        (emitAll env features children fuel pre).2 ++
          RunWarning.failedWrite k ::
            (emitAll env features children fuel post).2) := by
  constructor
  · exact emitAll_eq env features children fuel
  · intro pre k post hk
    rw [emitAll_eq, emitAll_eq, emitAll_eq]
    constructor
    · show ((pre ++ k :: post).filter env.writeOk).map (emitOne features children fuel) = _
      rw [List.filter_append, List.filter_cons_of_neg (by simp [hk])]
      simp
    · show ((pre ++ k :: post).filter (fun k => ! env.writeOk k)).map RunWarning.failedWrite = _
      rw [List.filter_append, List.filter_cons_of_pos (by simp [hk])]
      simp

/-- A concrete emitter environment in which writing node 1 fails. -/
def envC3 : GeoEnv :=
  { treeQuery := fun _ => []
    touches := fun _ _ => false
    blength := fun _ _ => 0
    area := fun _ => 1
    writeOk := fun k => decide (k ≠ 1) }

/-- Claim C3 witness: the emit-continuation theorem applied to a keep
list whose middle survivor fails to write. -/
theorem claim_C3_emit_continues_witness :
    envC3.writeOk 1 = false ∧
    ((emitAll envC3 ([] : List (SrcFeature Nat)) (fun _ => []) 1 ([0] ++ 1 :: [2])).1 =
        (emitAll envC3 ([] : List (SrcFeature Nat)) (fun _ => []) 1 [0]).1 ++
          (emitAll envC3 ([] : List (SrcFeature Nat)) (fun _ => []) 1 [2]).1 ∧
      (emitAll envC3 ([] : List (SrcFeature Nat)) (fun _ => []) 1 ([0] ++ 1 :: [2])).2 =
        (emitAll envC3 ([] : List (SrcFeature Nat)) (fun _ => []) 1 [0]).2 ++
          RunWarning.failedWrite 1 ::
            (emitAll envC3 ([] : List (SrcFeature Nat)) (fun _ => []) 1 [2]).2) :=
  ⟨rfl, (claim_C3_emit_continues envC3 ([] : List (SrcFeature Nat)) (fun _ => []) 1).2
    [0] 1 [2] rfl⟩

/-! ## The whole run

EliminatePolygonsByFID: build the pending FID set from the caller
array (negative entries skipped), load and classify the features, warn
when selected FIDs were not found, resolve each victim to its chosen
neighbor, collapse and emit the survivors, and return OGRERR_NONE. -/

/-- The observable outcome of one run. -/
structure RunResult (A : Type) where
  keeps : List Nat
  victims : List Nat
  stIndex : List Nat
  pendingLeft : List Int
  assignments : List (Nat × Nat)
  out : List (OutRow A)
  warnings : List RunWarning
  err : OGRErr

/-- The run, assembled from the passes above. The collapser fuel is one
more than the victim count, which the stabilization theorem shows is
enough. -/
def runEliminate {A : Type} (env : GeoEnv) (t : EliminateMergeType)
    (features : List (SrcFeature A)) (fids : List Int) : RunResult A :=
  { keeps := (load features (buildPending fids)).keeps
    victims := (load features (buildPending fids)).victims
    stIndex := (load features (buildPending fids)).stIndex
    pendingLeft := (load features (buildPending fids)).pending
    assignments := (resolveAll env t (load features (buildPending fids)).victims).1
    out := (emitAll env features
      (mergeChildren (resolveAll env t (load features (buildPending fids)).victims).1)
      ((load features (buildPending fids)).victims.length + 1)
      (load features (buildPending fids)).keeps).1
    warnings := (load features (buildPending fids)).warnings ++
      (if (load features (buildPending fids)).pending = [] then []
        else [RunWarning.notFound (load features (buildPending fids)).pending.length]) ++
      (resolveAll env t (load features (buildPending fids)).victims).2 ++
      (emitAll env features
        (mergeChildren (resolveAll env t (load features (buildPending fids)).victims).1)
        ((load features (buildPending fids)).victims.length + 1)
        (load features (buildPending fids)).keeps).2
    err := OGRErr.ok }

theorem runEliminate_out_eq {A : Type} (env : GeoEnv) (t : EliminateMergeType)
    (features : List (SrcFeature A)) (fids : List Int) :
    (runEliminate env t features fids).out =
      ((runEliminate env t features fids).keeps.filter env.writeOk).map
        (emitOne features (mergeChildren (runEliminate env t features fids).assignments)
          ((runEliminate env t features fids).victims.length + 1)) := by
  show (emitAll env features _ _ _).1 = _
  rw [emitAll_eq]
  rfl

/-- Claim C6: the rows written are exactly the keep features whose write
succeeded (victims contribute no row of their own), and every output row
carries the attribute tuple of the survivor it was emitted from. -/
theorem claim_C6_output_counts {A : Type} (env : GeoEnv) (t : EliminateMergeType)
    (features : List (SrcFeature A)) (fids : List Int) :
    (runEliminate env t features fids).out.length =
      ((runEliminate env t features fids).keeps.filter env.writeOk).length ∧
    (runEliminate env t features fids).out =
      ((runEliminate env t features fids).keeps.filter env.writeOk).map
        (emitOne features (mergeChildren (runEliminate env t features fids).assignments)
          ((runEliminate env t features fids).victims.length + 1)) ∧
    (∀ r ∈ (runEliminate env t features fids).out,
      r.src ∈ (runEliminate env t features fids).keeps ∧
      ¬ r.src ∈ (runEliminate env t features fids).victims ∧
      r.attrs = (features[r.src]?).map (fun f => f.attrs)) := by
  have hout := runEliminate_out_eq env t features fids
  refine ⟨by rw [hout]; simp, hout, ?_⟩
  intro r hr
  rw [hout] at hr
  obtain ⟨k, hk, hrk⟩ := List.mem_map.mp hr
  have hkk : k ∈ (runEliminate env t features fids).keeps := List.mem_of_mem_filter hk
  have hsrc : r.src = k := by rw [← hrk]; rfl
  have hinv := load_inv features (buildPending fids)
  refine ⟨by rw [hsrc]; exact hkk, ?_, by rw [← hrk]; rfl⟩
  rw [hsrc]
  intro hvic
  exact hinv.2.2.2.2.2 k ⟨hkk, hvic⟩

theorem mergeChildren_eq_childrenOf (env : GeoEnv) (t : EliminateMergeType) :
    ∀ (victims : List Nat) (g : Nat),
      mergeChildren (resolveAll env t victims).1 g =
        childrenOf victims (fun v => (resolveVictim env t v).1) g := by
  intro victims
  have hmain : ∀ (vs : List Nat) (g : Nat),
      mergeChildren (vs.filterMap (fun v =>
        (resolveVictim env t v).1.map (fun g2 => (v, g2)))) g =
      childrenOf vs (fun v => (resolveVictim env t v).1) g := by
    intro vs
    induction vs with
    | nil => intro g; rfl
    | cons v vs ih =>
      intro g
      rw [List.filterMap_cons]
      cases ho : (resolveVictim env t v).1 with
      | none =>
        simp only [Option.map_none']
        rw [ih]
        unfold childrenOf
        rw [List.filter_cons_of_neg (by simp [ho])]
      | some g2 =>
        simp only [Option.map_some']
        by_cases hg : g2 = g
        · unfold mergeChildren
          rw [List.filter_cons_of_pos (by simpa using hg)]
          unfold childrenOf
          rw [List.filter_cons_of_pos (by simp [ho, hg])]
          show v :: mergeChildren (vs.filterMap _) g = v :: childrenOf vs _ g
          rw [ih]
        · unfold mergeChildren
          rw [List.filter_cons_of_neg (by simpa using hg)]
          unfold childrenOf
          rw [List.filter_cons_of_neg (by simp [ho, hg])]
          exact ih g
  intro g
  rw [resolveAll_fst]
  exact hmain victims g

/-- Claim C10: every victim is assigned to at most one node - the single
chosen neighbor the resolver picked for it, which is never the victim
itself - so a victim ends up in the merged set of at most one output
row. -/
theorem claim_C10_single_assignment {A : Type} (env : GeoEnv) (t : EliminateMergeType)
    (features : List (SrcFeature A)) (fids : List Int) :
    (∀ v g g2,
      v ∈ mergeChildren (runEliminate env t features fids).assignments g →
      v ∈ mergeChildren (runEliminate env t features fids).assignments g2 → g = g2) ∧
    (∀ v g, v ∈ mergeChildren (runEliminate env t features fids).assignments g → g ≠ v) ∧
    (∀ v r r2, r ∈ (runEliminate env t features fids).out →
      r2 ∈ (runEliminate env t features fids).out →
      v ∈ r.merged → v ∈ r2.merged → r.src = r2.src) := by
  have hasg : (runEliminate env t features fids).assignments =
      (resolveAll env t (load features (buildPending fids)).victims).1 := rfl
  refine ⟨?_, ?_, ?_⟩
  · intro v g g2 h1 h2
    rw [hasg] at h1 h2
    have p1 := (mem_resolveAll_fst env t _ v g).mp ((mem_mergeChildren _ v g).mp h1)
    have p2 := (mem_resolveAll_fst env t _ v g2).mp ((mem_mergeChildren _ v g2).mp h2)
    have h3 : some g = some g2 := by rw [← p1.2, ← p2.2]
    exact Option.some.inj h3
  · intro v g h1
    rw [hasg] at h1
    have p1 := (mem_resolveAll_fst env t _ v g).mp ((mem_mergeChildren _ v g).mp h1)
    exact resolveVictim_ne_self env t v g p1.2
  · intro v r r2 hr hr2 hvr hvr2
    have hout := runEliminate_out_eq env t features fids
    rw [hout] at hr hr2
    obtain ⟨k, hk, hrk⟩ := List.mem_map.mp hr
    obtain ⟨k2, hk2, hrk2⟩ := List.mem_map.mp hr2
    have hinv := load_inv features (buildPending fids)
    have hkk : k ∈ (load features (buildPending fids)).keeps :=
      List.mem_of_mem_filter hk
    have hkk2 : k2 ∈ (load features (buildPending fids)).keeps :=
      List.mem_of_mem_filter hk2
    have hknv : ¬ k ∈ (load features (buildPending fids)).victims :=
      fun hv => hinv.2.2.2.2.2 k ⟨hkk, hv⟩
    have hknv2 : ¬ k2 ∈ (load features (buildPending fids)).victims :=
      fun hv => hinv.2.2.2.2.2 k2 ⟨hkk2, hv⟩
    have hchild : mergeChildren (runEliminate env t features fids).assignments =
        childrenOf (load features (buildPending fids)).victims
          (fun v => (resolveVictim env t v).1) := by
      funext g
      rw [hasg]
      exact mergeChildren_eq_childrenOf env t _ g
    have hmr : r.merged = collectMerge
        (childrenOf (load features (buildPending fids)).victims
          (fun v => (resolveVictim env t v).1))
        ((load features (buildPending fids)).victims.length + 1) k := by
      rw [← hrk]
      show collectMerge (mergeChildren (runEliminate env t features fids).assignments) _ _ = _
      rw [hchild]
      rfl
    have hmr2 : r2.merged = collectMerge
        (childrenOf (load features (buildPending fids)).victims
          (fun v => (resolveVictim env t v).1))
        ((load features (buildPending fids)).victims.length + 1) k2 := by
      rw [← hrk2]
      show collectMerge (mergeChildren (runEliminate env t features fids).assignments) _ _ = _
      rw [hchild]
      rfl
    rw [hmr] at hvr
    rw [hmr2] at hvr2
    have hksrc : r.src = k := by rw [← hrk]; rfl
    have hksrc2 : r2.src = k2 := by rw [← hrk2]; rfl
    rw [hksrc, hksrc2]
    exact collect_root_unique _ _ k k2 v hknv hknv2 _ _ hvr hvr2

/-- A concrete environment for the whole-run witnesses: node 1 touches
node 0 and every write succeeds. -/
def envC6 : GeoEnv :=
  { treeQuery := fun _ => [0]
    touches := fun _ _ => true
    blength := fun _ _ => 1
    area := fun _ => 1
    writeOk := fun _ => true }

/-- Two features: fid 0 is kept, fid 1 is the victim. -/
def fsC6 : List (SrcFeature Nat) :=
  [{ fid := 0, hasGeom := true, prepOk := true, attrs := 10 },
   { fid := 1, hasGeom := true, prepOk := true, attrs := 20 }]

/-- The single output row of that run. -/
def rowC6 : OutRow Nat := { src := 0, attrs := some 10, merged := [1] }

/-- Claim C6 witness: the output-row characterization applied to the
row emitted by a concrete run. -/
theorem claim_C6_output_counts_witness :
    rowC6 ∈ (runEliminate envC6 EliminateMergeType.largestArea fsC6 [1]).out ∧
    (rowC6.src ∈ (runEliminate envC6 EliminateMergeType.largestArea fsC6 [1]).keeps ∧
      ¬ rowC6.src ∈ (runEliminate envC6 EliminateMergeType.largestArea fsC6 [1]).victims ∧
      rowC6.attrs = (fsC6[rowC6.src]?).map (fun f => f.attrs)) :=
  ⟨by decide,
    (claim_C6_output_counts envC6 EliminateMergeType.largestArea fsC6 [1]).2.2 rowC6
      (by decide)⟩

/-- Claim C10 witness: the single-assignment theorem applied to the
victim of a concrete run. -/
theorem claim_C10_single_assignment_witness :
    1 ∈ mergeChildren
      (runEliminate envC6 EliminateMergeType.largestArea fsC6 [1]).assignments 0 ∧
    (0 : Nat) ≠ 1 :=
  ⟨by decide,
    (claim_C10_single_assignment envC6 EliminateMergeType.largestArea fsC6 [1]).2.1 1 0
      (by decide)⟩

/-! ### Absent-FID lemmas -/

theorem buildPending_append_single (fids : List Int) (x : Int) :
    buildPending (fids ++ [x]) = insertFID (buildPending fids) x := by
  unfold buildPending
  rw [List.foldl_append]
  rfl

theorem loadStep_extra_pending {A : Type} (st : LoadState) (i : Nat) (f : SrcFeature A)
    (x : Int) (hx : f.fid ≠ x) :
    loadStep { st with pending := st.pending ++ [x] } i f =
      { loadStep st i f with pending := (loadStep st i f).pending ++ [x] } := by
  unfold loadStep
  by_cases hg : f.hasGeom = false
  · rw [if_pos hg, if_pos hg]
  · rw [if_neg hg, if_neg hg]
    have hmem : (f.fid ∈ st.pending ++ [x]) = (f.fid ∈ st.pending) := by
      simp [List.mem_append, hx]
    by_cases hp : f.fid ∈ st.pending
    · rw [if_pos (show f.fid ∈ ({ st with pending := st.pending ++ [x] } : LoadState).pending
          from by rw [show ({ st with pending := st.pending ++ [x] } : LoadState).pending =
            st.pending ++ [x] from rfl, hmem]; exact hp),
        if_pos hp]
      by_cases hpr : f.prepOk = false
      · rw [if_pos hpr, if_pos hpr]
      · rw [if_neg hpr, if_neg hpr]
        apply LoadState.ext <;> simp [List.erase_append_left _ hp]
    · rw [if_neg (show ¬ f.fid ∈ ({ st with pending := st.pending ++ [x] } : LoadState).pending
          from by rw [show ({ st with pending := st.pending ++ [x] } : LoadState).pending =
            st.pending ++ [x] from rfl, hmem]; exact hp),
        if_neg hp]

theorem loadAux_extra_pending {A : Type} :
    ∀ (fs : List (SrcFeature A)) (st : LoadState) (i : Nat) (x : Int),
      (∀ f ∈ fs, f.fid ≠ x) →
      loadAux { st with pending := st.pending ++ [x] } i fs =
        { loadAux st i fs with pending := (loadAux st i fs).pending ++ [x] } := by
  intro fs
  induction fs with
  | nil => intro st i x _; rfl
  | cons f fs ih =>
    intro st i x hfs
    show loadAux (loadStep { st with pending := st.pending ++ [x] } i f) (i + 1) fs = _
    rw [loadStep_extra_pending st i f x (hfs f (List.mem_cons_self f fs))]
    exact ih (loadStep st i f) (i + 1) x (fun g hg => hfs g (List.mem_cons_of_mem f hg))

theorem loadAux_pending_mem {A : Type} :
    ∀ (fs : List (SrcFeature A)) (st : LoadState) (i : Nat) (x : Int),
      (∀ f ∈ fs, f.fid ≠ x) → x ∈ st.pending → x ∈ (loadAux st i fs).pending := by
  intro fs
  induction fs with
  | nil => intro st i x _ hx; exact hx
  | cons f fs ih =>
    intro st i x hfs hx
    apply ih (loadStep st i f) (i + 1) x (fun g hg => hfs g (List.mem_cons_of_mem f hg))
    unfold loadStep
    split_ifs with h1 h2 h3
    · exact hx
    · exact hx
    · show x ∈ st.pending.erase f.fid
      rw [List.mem_erase_of_ne]
      · exact hx
      · exact fun hxf => (hfs f (List.mem_cons_self f fs)) (hxf ▸ rfl)
    · exact hx

theorem load_extra_pending {A : Type} (features : List (SrcFeature A)) (pending : List Int)
    (x : Int) (hfs : ∀ f ∈ features, f.fid ≠ x) :
    load features (pending ++ [x]) =
      { load features pending with pending := (load features pending).pending ++ [x] } := by
  unfold load
  have h := loadAux_extra_pending features
    { keeps := [], victims := [], stIndex := [], pending := pending, warnings := [] } 0 x hfs
  exact h

/-- Claim C9: a selected victim FID that no source feature carries does
not change the run. The output rows, the keep and victim lists and the
assignments are those of the run without that FID; the operation still
returns OGRERR_NONE; the FID stays in the pending set after the load
pass, so the not-found warning (with a positive count) is logged. -/
theorem claim_C9_absent_fid {A : Type} (env : GeoEnv) (t : EliminateMergeType)
    (features : List (SrcFeature A)) (fids : List Int) (fid : Int)
    (h1 : 0 ≤ fid) (h2 : ∀ f ∈ features, f.fid ≠ fid) :
    (runEliminate env t features (fids ++ [fid])).out =
      (runEliminate env t features fids).out ∧
    (runEliminate env t features (fids ++ [fid])).keeps =
      (runEliminate env t features fids).keeps ∧
    (runEliminate env t features (fids ++ [fid])).victims =
      (runEliminate env t features fids).victims ∧
    (runEliminate env t features (fids ++ [fid])).assignments =
      (runEliminate env t features fids).assignments ∧
    (runEliminate env t features (fids ++ [fid])).err = OGRErr.ok ∧
    fid ∈ (runEliminate env t features (fids ++ [fid])).pendingLeft ∧
    (∃ n, 0 < n ∧
      RunWarning.notFound n ∈ (runEliminate env t features (fids ++ [fid])).warnings) := by
  have hbp : buildPending (fids ++ [fid]) = insertFID (buildPending fids) fid :=
    buildPending_append_single fids fid
  by_cases hin : fid ∈ buildPending fids
  · have hsame : buildPending (fids ++ [fid]) = buildPending fids := by
      rw [hbp]
      unfold insertFID
      rw [if_neg (by intro hc; exact hc.2 hin)]
    have hload : load features (buildPending (fids ++ [fid])) =
        load features (buildPending fids) := by rw [hsame]
    have hpend : fid ∈ (load features (buildPending (fids ++ [fid]))).pending := by
      rw [hsame]
      exact loadAux_pending_mem features _ 0 fid h2 hin
    refine ⟨?_, ?_, ?_, ?_, rfl, hpend, ?_⟩
    · show (emitAll env features _ _ _).1 = (emitAll env features _ _ _).1
      rw [hload]
    · show (load features (buildPending (fids ++ [fid]))).keeps = _
      rw [hload]
      rfl
    · show (load features (buildPending (fids ++ [fid]))).victims = _
      rw [hload]
      rfl
    · show (resolveAll env t _).1 = (resolveAll env t _).1
      rw [hload]
    · refine ⟨(load features (buildPending (fids ++ [fid]))).pending.length, ?_, ?_⟩
      · have hne : (load features (buildPending (fids ++ [fid]))).pending ≠ [] := by
          intro hc
          rw [hc] at hpend
          exact absurd hpend (List.not_mem_nil fid)
        cases hp : (load features (buildPending (fids ++ [fid]))).pending with
        | nil => exact absurd hp hne
        | cons a l => simp [hp]
      · show RunWarning.notFound _ ∈ _ ++ _ ++ _ ++ _
        apply List.mem_append.mpr
        apply Or.inl
        apply List.mem_append.mpr
        apply Or.inl
        apply List.mem_append.mpr
        apply Or.inr
        rw [if_neg]
        · exact List.mem_singleton.mpr rfl
        · intro hc
          rw [hc] at hpend
          exact absurd hpend (List.not_mem_nil fid)
  · have hsame : buildPending (fids ++ [fid]) = buildPending fids ++ [fid] := by
      rw [hbp]
      unfold insertFID
      rw [if_pos ⟨h1, hin⟩]
    have hload : load features (buildPending (fids ++ [fid])) =
        { load features (buildPending fids) with
          pending := (load features (buildPending fids)).pending ++ [fid] } := by
      rw [hsame]
      exact load_extra_pending features (buildPending fids) fid h2
    have hkeeps : (load features (buildPending (fids ++ [fid]))).keeps =
        (load features (buildPending fids)).keeps := by rw [hload]
    have hvict : (load features (buildPending (fids ++ [fid]))).victims =
        (load features (buildPending fids)).victims := by rw [hload]
    have hpend : (load features (buildPending (fids ++ [fid]))).pending =
        (load features (buildPending fids)).pending ++ [fid] := by rw [hload]
    have hfidin : fid ∈ (load features (buildPending (fids ++ [fid]))).pending := by
      rw [hpend]
      exact List.mem_append.mpr (Or.inr (List.mem_singleton.mpr rfl))
    refine ⟨?_, hkeeps, hvict, ?_, rfl, hfidin, ?_⟩
    · show (emitAll env features _ _ _).1 = (emitAll env features _ _ _).1
      rw [hkeeps, hvict]
    · show (resolveAll env t _).1 = (resolveAll env t _).1
      rw [hvict]
    · refine ⟨(load features (buildPending (fids ++ [fid]))).pending.length, ?_, ?_⟩
      · rw [hpend]
        simp
      · show RunWarning.notFound _ ∈ _ ++ _ ++ _ ++ _
        apply List.mem_append.mpr
        apply Or.inl
        apply List.mem_append.mpr
        apply Or.inl
        apply List.mem_append.mpr
        apply Or.inr
        rw [if_neg]
        · exact List.mem_singleton.mpr rfl
        · intro hc
          rw [hc] at hfidin
          exact absurd hfidin (List.not_mem_nil fid)

/-- Claim C9 witness: the absent-FID theorem applied to a concrete run
whose victim list names FID 9999, present in no source feature. -/
theorem claim_C9_absent_fid_witness :
    (0 : Int) ≤ 9999 ∧
    ((runEliminate envC6 EliminateMergeType.largestArea fsC6 ([1] ++ [9999])).out =
      (runEliminate envC6 EliminateMergeType.largestArea fsC6 [1]).out ∧
    (runEliminate envC6 EliminateMergeType.largestArea fsC6 ([1] ++ [9999])).keeps =
      (runEliminate envC6 EliminateMergeType.largestArea fsC6 [1]).keeps ∧
    (runEliminate envC6 EliminateMergeType.largestArea fsC6 ([1] ++ [9999])).victims =
      (runEliminate envC6 EliminateMergeType.largestArea fsC6 [1]).victims ∧
    (runEliminate envC6 EliminateMergeType.largestArea fsC6 ([1] ++ [9999])).assignments =
      (runEliminate envC6 EliminateMergeType.largestArea fsC6 [1]).assignments ∧
    (runEliminate envC6 EliminateMergeType.largestArea fsC6 ([1] ++ [9999])).err =
      OGRErr.ok ∧
    (9999 : Int) ∈
      (runEliminate envC6 EliminateMergeType.largestArea fsC6 ([1] ++ [9999])).pendingLeft ∧
    (∃ n, 0 < n ∧ RunWarning.notFound n ∈
      (runEliminate envC6 EliminateMergeType.largestArea fsC6 ([1] ++ [9999])).warnings)) :=
  ⟨by decide,
    claim_C9_absent_fid envC6 EliminateMergeType.largestArea fsC6 [1] 9999 (by decide)
      (by decide)⟩
